import Mathlib

/-!
Verification of the ngx-bun render cache, static asset resolver, render
engine and batch prerender orchestrator, against a shallow embedding of
the TypeScript sources.

Conventions of the embedding:
* A JavaScript Map is modelled as an insertion-ordered association list
  (head = oldest insertion, tail = newest), which is exactly the
  iteration order the source relies on.
* Machine integers and timestamps are modelled as Nat / Int.
* Fallible code returns Option or Except; try/catch becomes a match on
  the Except value.
* Wall-clock durations (performance.now differences) are abstracted to 0;
  no verified property concerns them.
-/

namespace NgxBun

/-! ## LRU cache, from src/server/cache.ts

The source stores entries in a single Map; `get` repositions a present
key by delete + set, `set` deletes a present key first (reposition) or,
for a new key at capacity, deletes the first key of the Map before
inserting at the end. -/

abbrev Key := String

structure LRUCache (T : Type) where
  entries : List (Key × T)
  maxSize : Nat

namespace LRUCache

def empty {T : Type} (maxSize : Nat) : LRUCache T := ⟨[], maxSize⟩

/-- Map.delete: removes the entry with the given key (keys are unique). -/
def mapDelete {T : Type} (m : List (Key × T)) (k : Key) : List (Key × T) :=
  m.filter (fun e => !(e.1 == k))

/-- get: if absent return undefined; otherwise delete and re-set, moving
the entry to the end (most recently used), and return its value. -/
def get {T : Type} (c : LRUCache T) (k : Key) : Option T × LRUCache T :=
  match c.entries.find? (fun e => e.1 == k) with
  | none => (none, c)
  | some e => (some e.2, ⟨mapDelete c.entries k ++ [(k, e.2)], c.maxSize⟩)

/-- set: delete a present key first; otherwise, at capacity, delete the
first (oldest) entry of the Map; then insert at the end. -/
def set {T : Type} (c : LRUCache T) (k : Key) (v : T) : LRUCache T :=
  if c.entries.any (fun e => e.1 == k) then
    ⟨mapDelete c.entries k ++ [(k, v)], c.maxSize⟩
  else
    let afterEvict : List (Key × T) :=
      if c.maxSize ≤ c.entries.length then
        match c.entries.head? with
        | some e0 => mapDelete c.entries e0.1
        | none => c.entries
      else c.entries
    ⟨afterEvict ++ [(k, v)], c.maxSize⟩

def has {T : Type} (c : LRUCache T) (k : Key) : Bool :=
  c.entries.any (fun e => e.1 == k)

def size {T : Type} (c : LRUCache T) : Nat := c.entries.length

/-- delete: returns whether the key was present, and the cache without it. -/
def deleteKey {T : Type} (c : LRUCache T) (k : Key) : Bool × LRUCache T :=
  (c.has k, ⟨mapDelete c.entries k, c.maxSize⟩)

def clear {T : Type} (c : LRUCache T) : LRUCache T := ⟨[], c.maxSize⟩

end LRUCache

/-! A sequence of cache operations, for stating the capacity and
eviction invariants over arbitrary call sequences. -/

inductive CacheOp (T : Type) where
  | get (k : Key)
  | set (k : Key) (v : T)

def applyOp {T : Type} (c : LRUCache T) : CacheOp T → LRUCache T
  | CacheOp.get k => (LRUCache.get c k).2
  | CacheOp.set k v => LRUCache.set c k v

def runOps {T : Type} (c : LRUCache T) (ops : List (CacheOp T)) : LRUCache T :=
  ops.foldl applyOp c

def cacheKeys {T : Type} (c : LRUCache T) : List Key :=
  c.entries.map Prod.fst

/-! ### Basic facts about the Map model -/

theorem keys_mapDelete {T : Type} (m : List (Key × T)) (k : Key) :
    (LRUCache.mapDelete m k).map Prod.fst
      = (m.map Prod.fst).filter (fun x => !(x == k)) := by
  induction m with
  | nil => rfl
  | cons e rest ih =>
    by_cases h : e.1 == k <;>
      simp [LRUCache.mapDelete, List.filter, h, ih] <;>
      simp [LRUCache.mapDelete] at ih <;> exact ih

theorem any_map_fst {T : Type} (m : List (Key × T)) (k : Key) :
    m.any (fun e => e.1 == k) = (m.map Prod.fst).any (fun x => x == k) := by
  induction m with
  | nil => rfl
  | cons e rest ih => simp [List.any_cons, ih]

theorem find?_isSome_eq_any {T : Type} (m : List (Key × T)) (k : Key) :
    (m.find? (fun e => e.1 == k)).isSome = m.any (fun e => e.1 == k) := by
  induction m with
  | nil => rfl
  | cons e rest ih =>
    by_cases h : e.1 == k <;> simp [List.find?, List.any_cons, h, ih]

theorem mapDelete_eq_self_of_not_mem {T : Type} (m : List (Key × T)) (k : Key)
    (h : m.any (fun e => e.1 == k) = false) : LRUCache.mapDelete m k = m := by
  induction m with
  | nil => rfl
  | cons e rest ih =>
    rw [List.any_cons, Bool.or_eq_false_iff] at h
    have ih2 := ih h.2
    unfold LRUCache.mapDelete at ih2 ⊢
    rw [List.filter_cons]
    simp [h.1, ih2]

def KeysNodup {T : Type} (c : LRUCache T) : Prop :=
  (c.entries.map Prod.fst).Nodup

theorem not_mem_keys_mapDelete {T : Type} (m : List (Key × T)) (k : Key) :
    ¬ k ∈ (LRUCache.mapDelete m k).map Prod.fst := by
  rw [keys_mapDelete]
  intro hmem
  have := List.of_mem_filter hmem
  simp at this

theorem keys_mapDelete_subset {T : Type} (m : List (Key × T)) (k : Key) :
    ∀ x ∈ (LRUCache.mapDelete m k).map Prod.fst, x ∈ m.map Prod.fst := by
  intro x hx
  rw [keys_mapDelete] at hx
  exact List.mem_of_mem_filter hx

theorem nodup_keys_mapDelete {T : Type} (m : List (Key × T)) (k : Key)
    (h : (m.map Prod.fst).Nodup) :
    ((LRUCache.mapDelete m k).map Prod.fst).Nodup := by
  rw [keys_mapDelete]; exact h.filter _

theorem length_mapDelete_of_mem {T : Type} (m : List (Key × T)) (k : Key)
    (hnd : (m.map Prod.fst).Nodup)
    (hmem : m.any (fun e => e.1 == k) = true) :
    (LRUCache.mapDelete m k).length + 1 = m.length := by
  induction m with
  | nil => simp at hmem
  | cons e rest ih =>
    rw [List.map_cons, List.nodup_cons] at hnd
    by_cases h : (e.1 == k) = true
    · have hk : e.1 = k := by simpa using h
      have hrest : rest.any (fun e2 => e2.1 == k) = false := by
        rw [List.any_eq_false]
        intro x hx
        simp only [beq_iff_eq]
        intro hxk
        exact hnd.1 (hk ▸ hxk ▸ List.mem_map_of_mem Prod.fst hx)
      have hDel : LRUCache.mapDelete (e :: rest) k = rest := by
        have hrest2 := mapDelete_eq_self_of_not_mem rest k hrest
        unfold LRUCache.mapDelete at hrest2 ⊢
        rw [List.filter_cons]
        simp [h, hrest2]
      rw [hDel]
      rfl
    · rw [List.any_cons, Bool.eq_false_iff.mpr h, Bool.false_or] at hmem
      have ih2 := ih hnd.2 hmem
      have hDel : LRUCache.mapDelete (e :: rest) k
          = e :: LRUCache.mapDelete rest k := by
        unfold LRUCache.mapDelete
        rw [List.filter_cons]
        simp [Bool.eq_false_iff.mpr h]
      rw [hDel, List.length_cons, List.length_cons]
      omega

theorem length_mapDelete_le {T : Type} (m : List (Key × T)) (k : Key) :
    (LRUCache.mapDelete m k).length ≤ m.length :=
  List.length_filter_le _ _

/-! ### The central invariant: unique keys and bounded size -/

structure CacheInv {T : Type} (C : Nat) (c : LRUCache T) : Prop where
  nodup : (c.entries.map Prod.fst).Nodup
  size_le : c.entries.length ≤ C
  max_eq : c.maxSize = C

theorem nodup_append_one {T : Type} (m : List (Key × T)) (k : Key) (v : T)
    (hnd : (m.map Prod.fst).Nodup) (hk : ¬ k ∈ m.map Prod.fst) :
    ((m ++ [(k, v)]).map Prod.fst).Nodup := by
  rw [List.map_append]
  rw [List.nodup_append]
  refine ⟨hnd, List.nodup_singleton k, ?_⟩
  intro x hx hx2
  simp at hx2
  exact hk (hx2 ▸ hx)

theorem cacheInv_applyOp {T : Type} (C : Nat) (hC : 1 ≤ C) (c : LRUCache T)
    (op : CacheOp T) (h : CacheInv C c) : CacheInv C (applyOp c op) := by
  cases op with
  | get k =>
    show CacheInv C (LRUCache.get c k).2
    unfold LRUCache.get
    cases hf : c.entries.find? (fun e => e.1 == k) with
    | none => exact h
    | some e =>
      have hmem : c.entries.any (fun e => e.1 == k) = true := by
        rw [← find?_isSome_eq_any, hf]; rfl
      refine ⟨?_, ?_, h.max_eq⟩
      · exact nodup_append_one _ k _ (nodup_keys_mapDelete _ _ h.nodup)
          (not_mem_keys_mapDelete _ _)
      · rw [List.length_append]
        have := length_mapDelete_of_mem c.entries k h.nodup hmem
        have := h.size_le
        simp only [List.length_singleton]
        omega
  | set k v =>
    show CacheInv C (LRUCache.set c k v)
    unfold LRUCache.set
    by_cases hmem : c.entries.any (fun e => e.1 == k) = true
    · rw [if_pos hmem]
      refine ⟨?_, ?_, h.max_eq⟩
      · exact nodup_append_one _ k _ (nodup_keys_mapDelete _ _ h.nodup)
          (not_mem_keys_mapDelete _ _)
      · rw [List.length_append]
        have := length_mapDelete_of_mem c.entries k h.nodup hmem
        have := h.size_le
        simp only [List.length_singleton]
        omega
    · rw [if_neg hmem]
      rw [Bool.not_eq_true] at hmem
      have hknot : ¬ k ∈ c.entries.map Prod.fst := by
        intro hx
        rw [any_map_fst, List.any_eq_false] at hmem
        have := hmem k hx
        simp at this
      by_cases hfull : c.maxSize ≤ c.entries.length
      · rw [if_pos hfull]
        have hlen : 1 ≤ c.entries.length := le_trans hC (h.max_eq ▸ hfull)
        cases hent : c.entries with
        | nil => rw [hent] at hlen; simp at hlen
        | cons e0 rest =>
          simp only [hent, List.head?_cons]
          have hmem0 : c.entries.any (fun e => e.1 == e0.1) = true := by
            rw [hent]; simp [List.any_cons]
          have hlendel := length_mapDelete_of_mem c.entries e0.1 h.nodup hmem0
          refine ⟨?_, ?_, h.max_eq⟩
          · rw [← hent]
            apply nodup_append_one _ k _ (nodup_keys_mapDelete _ _ h.nodup)
            intro hx
            exact hknot (keys_mapDelete_subset _ _ _ hx)
          · rw [← hent, List.length_append]
            have := h.size_le
            simp only [List.length_singleton]
            omega
      · rw [if_neg hfull]
        rw [Nat.not_le, h.max_eq] at hfull
        refine ⟨nodup_append_one _ k _ h.nodup hknot, ?_, h.max_eq⟩
        rw [List.length_append]
        simp only [List.length_singleton]
        omega

theorem cacheInv_runOps {T : Type} (C : Nat) (hC : 1 ≤ C) (c : LRUCache T)
    (ops : List (CacheOp T)) (h : CacheInv C c) : CacheInv C (runOps c ops) := by
  induction ops generalizing c with
  | nil => exact h
  | cons op ops ih => exact ih (applyOp c op) (cacheInv_applyOp C hC c op h)

theorem cacheInv_empty {T : Type} (C : Nat) : CacheInv C (LRUCache.empty (T := T) C) :=
  ⟨List.nodup_nil, Nat.zero_le C, rfl⟩

theorem maxSize_applyOp {T : Type} (c : LRUCache T) (op : CacheOp T) :
    (applyOp c op).maxSize = c.maxSize := by
  cases op with
  | get k =>
    show (LRUCache.get c k).2.maxSize = c.maxSize
    unfold LRUCache.get
    cases c.entries.find? (fun e => e.1 == k) <;> rfl
  | set k v =>
    show (LRUCache.set c k v).maxSize = c.maxSize
    unfold LRUCache.set
    by_cases h : c.entries.any (fun e => e.1 == k) = true
    · rw [if_pos h]
    · rw [if_neg h]

theorem runOps_append {T : Type} (c : LRUCache T) (p q : List (CacheOp T)) :
    runOps c (p ++ q) = runOps (runOps c p) q :=
  List.foldl_append _ _ _ _

theorem maxSize_runOps {T : Type} (c : LRUCache T) (ops : List (CacheOp T)) :
    (runOps c ops).maxSize = c.maxSize := by
  induction ops generalizing c with
  | nil => rfl
  | cons op ops ih => rw [runOps, List.foldl_cons, ← runOps, ih, maxSize_applyOp]

/-! ### Ghost instrumentation: last-touch indices

To state that the evicted entry is the least recently touched one, we run
a parallel ghost cache whose stored value is the index of the operation
that last touched (get hit, or set) the resident key.  The ghost
transitions mirror the key dynamics of the source cache exactly; the
correspondence is proved below, not assumed. -/

def touchGet (s : List (Key × Nat)) (k : Key) (t : Nat) : List (Key × Nat) :=
  match s.find? (fun e => e.1 == k) with
  | none => s
  | some _ => LRUCache.mapDelete s k ++ [(k, t)]

def touchSet (C : Nat) (s : List (Key × Nat)) (k : Key) (t : Nat) :
    List (Key × Nat) :=
  if s.any (fun e => e.1 == k) then LRUCache.mapDelete s k ++ [(k, t)]
  else
    let afterEvict : List (Key × Nat) :=
      if C ≤ s.length then
        match s.head? with
        | some e0 => LRUCache.mapDelete s e0.1
        | none => s
      else s
    afterEvict ++ [(k, t)]

def ghostApply {T : Type} (C : Nat) (s : List (Key × Nat)) (op : CacheOp T)
    (t : Nat) : List (Key × Nat) :=
  match op with
  | CacheOp.get k => touchGet s k t
  | CacheOp.set k _ => touchSet C s k t

def ghostRun {T : Type} (C : Nat) :
    List (CacheOp T) → Nat → List (Key × Nat) → List (Key × Nat)
  | [], _, s => s
  | op :: ops, t, s => ghostRun C ops (t + 1) (ghostApply C s op t)

/-- Operation `i` of the sequence touches key `k`: it is a set of `k`, or a
get of `k` that hits (the key is resident when the get runs). -/
def touchesAt {T : Type} (C : Nat) (ops : List (CacheOp T)) (i : Nat) (k : Key) :
    Prop :=
  match ops[i]? with
  | some (CacheOp.set k2 _) => k2 = k
  | some (CacheOp.get k2) =>
      k2 = k ∧ (runOps (LRUCache.empty C) (ops.take i)).has k = true
  | none => False

/-! Transfer lemmas between the ghost state and the source cache. -/

theorem find?_isSome_eq_of_keys_eq {T U : Type} (m : List (Key × T))
    (m2 : List (Key × U)) (k : Key)
    (h : m.map Prod.fst = m2.map Prod.fst) :
    (m.find? (fun e => e.1 == k)).isSome
      = (m2.find? (fun e => e.1 == k)).isSome := by
  rw [find?_isSome_eq_any, find?_isSome_eq_any, any_map_fst, any_map_fst, h]

theorem any_eq_of_keys_eq {T U : Type} (m : List (Key × T))
    (m2 : List (Key × U)) (k : Key)
    (h : m.map Prod.fst = m2.map Prod.fst) :
    m.any (fun e => e.1 == k) = m2.any (fun e => e.1 == k) := by
  rw [any_map_fst, any_map_fst, h]

theorem head_key_eq_of_keys_eq {T U : Type} (m : List (Key × T))
    (m2 : List (Key × U))
    (h : m.map Prod.fst = m2.map Prod.fst) :
    m.head?.map Prod.fst = m2.head?.map Prod.fst := by
  rw [← List.head?_map, ← List.head?_map, h]

theorem ghost_keys_applyOp {T : Type} (C : Nat) (c : LRUCache T)
    (s : List (Key × Nat)) (op : CacheOp T) (t : Nat)
    (hmax : c.maxSize = C)
    (hkeys : s.map Prod.fst = c.entries.map Prod.fst) :
    (ghostApply C s op t).map Prod.fst
      = (applyOp c op).entries.map Prod.fst := by
  cases op with
  | get k =>
    show (touchGet s k t).map Prod.fst
        = (LRUCache.get c k).2.entries.map Prod.fst
    unfold touchGet LRUCache.get
    have hiso := find?_isSome_eq_of_keys_eq s c.entries k hkeys
    cases hsf : s.find? (fun e => e.1 == k) with
    | none =>
      rw [hsf] at hiso
      cases hcf : c.entries.find? (fun e => e.1 == k) with
      | none => exact hkeys
      | some e => rw [hcf] at hiso; simp at hiso
    | some g =>
      rw [hsf] at hiso
      cases hcf : c.entries.find? (fun e => e.1 == k) with
      | none => rw [hcf] at hiso; simp at hiso
      | some e =>
        show (LRUCache.mapDelete s k ++ [(k, t)]).map Prod.fst
            = (LRUCache.mapDelete c.entries k ++ [(k, e.2)]).map Prod.fst
        rw [List.map_append, List.map_append, keys_mapDelete, keys_mapDelete,
          hkeys]
        simp
  | set k v =>
    show (touchSet C s k t).map Prod.fst
        = (LRUCache.set c k v).entries.map Prod.fst
    unfold touchSet LRUCache.set
    have hany := any_eq_of_keys_eq s c.entries k hkeys
    have hlen : s.length = c.entries.length := by
      have h2 := congrArg List.length hkeys
      simpa using h2
    by_cases hp : s.any (fun e => e.1 == k) = true
    · have hp2 : (c.entries.any (fun e => e.1 == k)) = true := hany ▸ hp
      rw [if_pos hp, if_pos hp2]
      show (LRUCache.mapDelete s k ++ [(k, t)]).map Prod.fst
          = (LRUCache.mapDelete c.entries k ++ [(k, v)]).map Prod.fst
      rw [List.map_append, List.map_append, keys_mapDelete, keys_mapDelete,
        hkeys]
      simp
    · have hp2 : ¬ ((c.entries.any (fun e => e.1 == k)) = true) := by
        rw [← hany]; exact hp
      rw [if_neg hp, if_neg hp2]
      by_cases hfull : C ≤ s.length
      · have hfull2 : c.maxSize ≤ c.entries.length := by
          rw [hmax, ← hlen]; exact hfull
        rw [if_pos hfull, if_pos hfull2]
        have hheads := head_key_eq_of_keys_eq s c.entries hkeys
        cases hsh : s.head? with
        | none =>
          rw [hsh] at hheads
          cases hch : c.entries.head? with
          | none =>
            show (s ++ [(k, t)]).map Prod.fst
                = (c.entries ++ [(k, v)]).map Prod.fst
            rw [List.map_append, List.map_append, hkeys]
            simp
          | some e0 => rw [hch] at hheads; simp at hheads
        | some g0 =>
          rw [hsh] at hheads
          cases hch : c.entries.head? with
          | none => rw [hch] at hheads; simp at hheads
          | some e0 =>
            rw [hch] at hheads
            simp only [Option.map_some'] at hheads
            have hk0 : g0.1 = e0.1 := by injection hheads
            show (LRUCache.mapDelete s g0.1 ++ [(k, t)]).map Prod.fst
                = (LRUCache.mapDelete c.entries e0.1 ++ [(k, v)]).map Prod.fst
            rw [List.map_append, List.map_append, keys_mapDelete,
              keys_mapDelete, hkeys, hk0]
            simp
      · have hfull2 : ¬ (c.maxSize ≤ c.entries.length) := by
          rw [hmax, ← hlen]; exact hfull
        rw [if_neg hfull, if_neg hfull2]
        show (s ++ [(k, t)]).map Prod.fst
            = (c.entries ++ [(k, v)]).map Prod.fst
        rw [List.map_append, List.map_append, hkeys]
        simp

/-! Index plumbing for sequences extended on the right. -/

theorem getElem?_append_lt {α : Type _} (p q : List α) (i : Nat)
    (h : i < p.length) : (p ++ q)[i]? = p[i]? := by
  induction p generalizing i with
  | nil => simp at h
  | cons a p ih =>
    cases i with
    | zero => simp
    | succ i =>
      simp only [List.cons_append, List.getElem?_cons_succ]
      exact ih i (by simpa using h)

theorem take_append_le {α : Type _} (p q : List α) (i : Nat)
    (h : i ≤ p.length) : (p ++ q).take i = p.take i := by
  induction p generalizing i with
  | nil =>
    have h0 : i = 0 := Nat.le_zero.mp (by simpa using h)
    subst h0; rfl
  | cons a p ih =>
    cases i with
    | zero => rfl
    | succ i =>
      simp only [List.cons_append, List.take_succ_cons]
      rw [ih i (by simpa using h)]

theorem getElem?_append_length {α : Type _} (p : List α) (a : α) :
    (p ++ [a])[p.length]? = some a := by
  induction p with
  | nil => rfl
  | cons b p ih =>
    simp only [List.cons_append, List.length_cons, List.getElem?_cons_succ]
    exact ih

theorem touchesAt_append_iff {T : Type} (C : Nat) (p q : List (CacheOp T))
    (i : Nat) (hi : i < p.length) (k : Key) :
    touchesAt C (p ++ q) i k ↔ touchesAt C p i k := by
  unfold touchesAt
  rw [getElem?_append_lt p q i hi, take_append_le p q i (le_of_lt hi)]

theorem touchesAt_last_set {T : Type} (C : Nat) (p : List (CacheOp T))
    (k2 : Key) (v : T) (k : Key) :
    touchesAt C (p ++ [CacheOp.set k2 v]) p.length k ↔ k2 = k := by
  unfold touchesAt
  rw [getElem?_append_length]

theorem touchesAt_last_get {T : Type} (C : Nat) (p : List (CacheOp T))
    (k2 k : Key) :
    touchesAt C (p ++ [CacheOp.get (T := T) k2]) p.length k ↔
      k2 = k ∧ (runOps (LRUCache.empty C) p).has k = true := by
  unfold touchesAt
  rw [getElem?_append_length, take_append_le p _ p.length (le_refl _),
    List.take_length]

/-! The full ghost invariant: the ghost state has the same keys in the
same order as the source cache, its recorded indices are strictly
increasing along the list, and each recorded index really is the last
operation that touched the resident key. -/

structure GhostInv {T : Type} (C : Nat) (p : List (CacheOp T))
    (s : List (Key × Nat)) : Prop where
  keys_eq : s.map Prod.fst
      = (runOps (LRUCache.empty C) p).entries.map Prod.fst
  sorted : List.Pairwise (fun a b : Key × Nat => a.2 < b.2) s
  bounded : ∀ e ∈ s, e.2 < p.length
  touched : ∀ e ∈ s, touchesAt C p e.2 e.1
  touched_last : ∀ e ∈ s, ∀ j, e.2 < j → j < p.length →
      ¬ touchesAt C p j e.1

theorem ghostInv_extend {T : Type} (C : Nat) (p : List (CacheOp T))
    (op : CacheOp T) (s X : List (Key × Nat)) (k : Key)
    (hInv : GhostInv C p s)
    (hX : X.Sublist s)
    (hkeys : (X ++ [(k, p.length)]).map Prod.fst
        = (runOps (LRUCache.empty C) (p ++ [op])).entries.map Prod.fst)
    (htouch : touchesAt C (p ++ [op]) p.length k)
    (hnotouch : ∀ e ∈ X, ¬ touchesAt C (p ++ [op]) p.length e.1) :
    GhostInv C (p ++ [op]) (X ++ [(k, p.length)]) := by
  have hXmem : ∀ e ∈ X, e ∈ s := fun e he => hX.subset he
  refine ⟨hkeys, ?_, ?_, ?_, ?_⟩
  · rw [List.pairwise_append]
    refine ⟨List.Pairwise.sublist hX hInv.sorted,
      List.pairwise_singleton _ _, ?_⟩
    intro a ha b hb
    have hb2 : b = (k, p.length) := by simpa using hb
    subst hb2
    exact hInv.bounded a (hXmem a ha)
  · intro e he
    rw [List.length_append, List.length_singleton]
    rcases List.mem_append.mp he with h1 | h1
    · exact Nat.lt_succ_of_lt (hInv.bounded e (hXmem e h1))
    · have he2 : e = (k, p.length) := by simpa using h1
      subst he2; omega
  · intro e he
    rcases List.mem_append.mp he with h1 | h1
    · rw [touchesAt_append_iff C p [op] e.2 (hInv.bounded e (hXmem e h1)) e.1]
      exact hInv.touched e (hXmem e h1)
    · have he2 : e = (k, p.length) := by simpa using h1
      subst he2; exact htouch
  · intro e he j hj hjlt
    rw [List.length_append, List.length_singleton] at hjlt
    rcases List.mem_append.mp he with h1 | h1
    · by_cases hcase : j < p.length
      · rw [touchesAt_append_iff C p [op] j hcase e.1]
        exact hInv.touched_last e (hXmem e h1) j hj hcase
      · have hj2 : j = p.length := by omega
        subst hj2
        exact hnotouch e h1
    · have he2 : e = (k, p.length) := by simpa using h1
      subst he2
      intro _
      simp at hj
      omega

theorem ghostInv_keep {T : Type} (C : Nat) (p : List (CacheOp T))
    (op : CacheOp T) (s : List (Key × Nat))
    (hInv : GhostInv C p s)
    (hkeys : s.map Prod.fst
        = (runOps (LRUCache.empty C) (p ++ [op])).entries.map Prod.fst)
    (hnotouch : ∀ e ∈ s, ¬ touchesAt C (p ++ [op]) p.length e.1) :
    GhostInv C (p ++ [op]) s := by
  refine ⟨hkeys, hInv.sorted, ?_, ?_, ?_⟩
  · intro e he
    rw [List.length_append, List.length_singleton]
    exact Nat.lt_succ_of_lt (hInv.bounded e he)
  · intro e he
    rw [touchesAt_append_iff C p [op] e.2 (hInv.bounded e he) e.1]
    exact hInv.touched e he
  · intro e he j hj hjlt
    rw [List.length_append, List.length_singleton] at hjlt
    by_cases hcase : j < p.length
    · rw [touchesAt_append_iff C p [op] j hcase e.1]
      exact hInv.touched_last e he j hj hcase
    · have hj2 : j = p.length := by omega
      subst hj2
      exact hnotouch e he

theorem ghostInv_step {T : Type} (C : Nat) (p : List (CacheOp T))
    (op : CacheOp T) (s : List (Key × Nat)) (hInv : GhostInv C p s) :
    GhostInv C (p ++ [op]) (ghostApply C s op p.length) := by
  have hmax : (runOps (LRUCache.empty (T := T) C) p).maxSize = C := by
    rw [maxSize_runOps]; rfl
  have hkeysAll : (ghostApply C s op p.length).map Prod.fst
      = (runOps (LRUCache.empty C) (p ++ [op])).entries.map Prod.fst := by
    rw [runOps_append]
    exact ghost_keys_applyOp C _ s op p.length hmax hInv.keys_eq
  cases op with
  | get k =>
    cases hsf : s.find? (fun e => e.1 == k) with
    | none =>
      have hval : ghostApply C s (CacheOp.get (T := T) k) p.length = s := by
        show touchGet s k p.length = s
        unfold touchGet
        rw [hsf]
      rw [hval] at hkeysAll ⊢
      have hkabs : s.any (fun e => e.1 == k) = false := by
        rw [← find?_isSome_eq_any, hsf]; rfl
      apply ghostInv_keep C p _ s hInv hkeysAll
      intro e he hT
      rw [touchesAt_last_get] at hT
      obtain ⟨hke, _⟩ := hT
      have hmem2 : s.any (fun e2 => e2.1 == k) = true := by
        rw [List.any_eq_true]
        exact ⟨e, he, by simp [hke]⟩
      rw [hkabs] at hmem2
      exact Bool.false_ne_true hmem2
    | some g =>
      have hval : ghostApply C s (CacheOp.get (T := T) k) p.length
          = LRUCache.mapDelete s k ++ [(k, p.length)] := by
        show touchGet s k p.length = _
        unfold touchGet
        rw [hsf]
      rw [hval] at hkeysAll ⊢
      refine ghostInv_extend C p _ s _ k hInv (List.filter_sublist _)
        hkeysAll ?_ ?_
      · rw [touchesAt_last_get]
        refine ⟨rfl, ?_⟩
        show (runOps (LRUCache.empty C) p).entries.any (fun e => e.1 == k)
            = true
        rw [← any_eq_of_keys_eq s _ k hInv.keys_eq,
          ← find?_isSome_eq_any, hsf]
        rfl
      · intro e he hT
        rw [touchesAt_last_get] at hT
        obtain ⟨hke, _⟩ := hT
        have he2 : e ∈ s.filter (fun e2 => !(e2.1 == k)) := he
        have := List.of_mem_filter he2
        simp at this
        exact this hke.symm
  | set k v =>
    by_cases hp : s.any (fun e => e.1 == k) = true
    · have hval : ghostApply C s (CacheOp.set k v) p.length
          = LRUCache.mapDelete s k ++ [(k, p.length)] := by
        show touchSet C s k p.length = _
        unfold touchSet
        rw [if_pos hp]
      rw [hval] at hkeysAll ⊢
      refine ghostInv_extend C p _ s _ k hInv (List.filter_sublist _)
        hkeysAll ((touchesAt_last_set C p k v k).mpr rfl) ?_
      intro e he hT
      rw [touchesAt_last_set] at hT
      have he2 : e ∈ s.filter (fun e2 => !(e2.1 == k)) := he
      have := List.of_mem_filter he2
      simp at this
      exact this hT.symm
    · have hnt : ∀ e ∈ s, ¬ touchesAt C (p ++ [CacheOp.set k v]) p.length e.1 := by
        intro e he hT
        rw [touchesAt_last_set] at hT
        apply hp
        rw [List.any_eq_true]
        exact ⟨e, he, by simp [hT]⟩
      by_cases hfull : C ≤ s.length
      · cases hsh : s.head? with
        | none =>
          have hval : ghostApply C s (CacheOp.set k v) p.length
              = s ++ [(k, p.length)] := by
            show touchSet C s k p.length = _
            unfold touchSet
            rw [if_neg hp, if_pos hfull, hsh]
          rw [hval] at hkeysAll ⊢
          exact ghostInv_extend C p _ s s k hInv (List.Sublist.refl s)
            hkeysAll ((touchesAt_last_set C p k v k).mpr rfl) hnt
        | some g0 =>
          have hval : ghostApply C s (CacheOp.set k v) p.length
              = LRUCache.mapDelete s g0.1 ++ [(k, p.length)] := by
            show touchSet C s k p.length = _
            unfold touchSet
            rw [if_neg hp, if_pos hfull, hsh]
          rw [hval] at hkeysAll ⊢
          refine ghostInv_extend C p _ s _ k hInv (List.filter_sublist _)
            hkeysAll ((touchesAt_last_set C p k v k).mpr rfl) ?_
          intro e he
          exact hnt e (List.mem_of_mem_filter he)
      · have hval : ghostApply C s (CacheOp.set k v) p.length
            = s ++ [(k, p.length)] := by
          show touchSet C s k p.length = _
          unfold touchSet
          rw [if_neg hp, if_neg hfull]
        rw [hval] at hkeysAll ⊢
        exact ghostInv_extend C p _ s s k hInv (List.Sublist.refl s)
          hkeysAll ((touchesAt_last_set C p k v k).mpr rfl) hnt

theorem ghostInv_nil {T : Type} (C : Nat) : GhostInv (T := T) C [] [] := by
  refine ⟨rfl, List.Pairwise.nil, ?_, ?_, ?_⟩ <;> intro e he <;> simp at he

theorem ghostInv_run {T : Type} (C : Nat) (ops : List (CacheOp T)) :
    ∀ (p : List (CacheOp T)) (s : List (Key × Nat)), GhostInv C p s →
    GhostInv C (p ++ ops) (ghostRun C ops p.length s) := by
  induction ops with
  | nil =>
    intro p s h
    simpa using h
  | cons op ops ih =>
    intro p s h
    have h2 := ih (p ++ [op]) (ghostApply C s op p.length)
      (ghostInv_step C p op s h)
    rw [List.length_append, List.length_singleton] at h2
    rw [List.append_assoc] at h2
    exact h2

theorem ghostInv_full {T : Type} (C : Nat) (ops : List (CacheOp T)) :
    GhostInv C ops (ghostRun C ops 0 []) := by
  have h := ghostInv_run C ops [] [] (ghostInv_nil C)
  simpa using h

theorem set_entries_evict {T : Type} (C : Nat) (hC : 1 ≤ C) (c : LRUCache T)
    (hinv : CacheInv C c) (k : Key) (v : T)
    (habs : c.has k = false) (hlen : c.entries.length = C) :
    ∃ ev rest, c.entries = ev :: rest ∧
      (LRUCache.set c k v).entries = rest ++ [(k, v)] := by
  cases hent : c.entries with
  | nil =>
    rw [hent] at hlen
    simp at hlen
    omega
  | cons ev rest =>
    refine ⟨ev, rest, rfl, ?_⟩
    unfold LRUCache.set
    have hnot : ¬ (c.entries.any (fun e => e.1 == k) = true) := by
      rw [show c.entries.any (fun e => e.1 == k) = false from habs]
      simp
    rw [if_neg hnot]
    have hfull : c.maxSize ≤ c.entries.length := by
      rw [hinv.max_eq, hlen]
    rw [if_pos hfull, hent]
    simp only [List.head?_cons]
    have hnd := hinv.nodup
    rw [hent, List.map_cons, List.nodup_cons] at hnd
    have hrest : rest.any (fun e2 => e2.1 == ev.1) = false := by
      rw [List.any_eq_false]
      intro x hx
      simp only [beq_iff_eq]
      intro hxk
      exact hnd.1 (hxk ▸ List.mem_map_of_mem Prod.fst hx)
    have hDel : LRUCache.mapDelete (ev :: rest) ev.1 = rest := by
      have hrest2 := mapDelete_eq_self_of_not_mem rest ev.1 hrest
      unfold LRUCache.mapDelete at hrest2 ⊢
      rw [List.filter_cons]
      simp [hrest2]
    rw [hDel]

theorem ghost_head_min {T : Type} (C : Nat) (ops : List (CacheOp T))
    (ev : Key × T) (rest : List (Key × T))
    (hent : (runOps (LRUCache.empty C) ops).entries = ev :: rest) :
    ∃ tev, touchesAt C ops tev ev.1 ∧
      (∀ j, tev < j → j < ops.length → ¬ touchesAt C ops j ev.1) ∧
      (∀ k2 ∈ rest.map Prod.fst, ∃ t2, tev < t2 ∧ touchesAt C ops t2 k2) := by
  have hg := ghostInv_full C ops
  have hkeys := hg.keys_eq
  rw [hent] at hkeys
  cases hgc : ghostRun (T := T) C ops 0 [] with
  | nil => rw [hgc] at hkeys; simp at hkeys
  | cons ge grest =>
    rw [hgc] at hkeys
    simp only [List.map_cons, List.cons.injEq] at hkeys
    have hhead : ge.1 = ev.1 := hkeys.1
    have htail : grest.map Prod.fst = rest.map Prod.fst := hkeys.2
    refine ⟨ge.2, ?_, ?_, ?_⟩
    · have h1 := hg.touched ge (by rw [hgc]; exact List.mem_cons_self ge grest)
      exact hhead ▸ h1
    · intro j hj hjlt
      have h1 := hg.touched_last ge
        (by rw [hgc]; exact List.mem_cons_self ge grest) j hj hjlt
      exact hhead ▸ h1
    · intro k2 hk2
      rw [← htail] at hk2
      obtain ⟨e2, he2, hk2eq⟩ := List.mem_map.mp hk2
      refine ⟨e2.2, ?_, ?_⟩
      · have hs := hg.sorted
        rw [hgc] at hs
        exact (List.pairwise_cons.mp hs).1 e2 he2
      · have h1 := hg.touched e2
          (by rw [hgc]; exact List.mem_cons_of_mem ge he2)
        exact hk2eq ▸ h1

/-- C1: starting from an empty cache of capacity `C ≥ 1`, no sequence of
get and set calls ever makes the entry count exceed `C`; and whenever a
set with a new key arrives at capacity, exactly one entry (the head of
the Map) is evicted, and that entry is the least recently touched one:
the index of the operation that last touched it (get hit or set) is
strictly below the last-touch index of every other resident key. -/
theorem lru_capacity_and_lru_eviction {T : Type} (C : Nat) (hC : 1 ≤ C)
    (ops : List (CacheOp T)) :
    (runOps (LRUCache.empty C) ops).entries.length ≤ C ∧
    (∀ k v, (runOps (LRUCache.empty C) ops).has k = false →
      (runOps (LRUCache.empty C) ops).entries.length = C →
      ∃ ev rest, (runOps (LRUCache.empty C) ops).entries = ev :: rest ∧
        (LRUCache.set (runOps (LRUCache.empty C) ops) k v).entries
          = rest ++ [(k, v)] ∧
        ∃ tev, touchesAt C ops tev ev.1 ∧
          (∀ j, tev < j → j < ops.length → ¬ touchesAt C ops j ev.1) ∧
          (∀ k2 ∈ rest.map Prod.fst, ∃ t2, tev < t2 ∧
            touchesAt C ops t2 k2)) := by
  have hinv := cacheInv_runOps C hC (LRUCache.empty C) ops (cacheInv_empty C)
  refine ⟨hinv.size_le, ?_⟩
  intro k v habs hlen
  obtain ⟨ev, rest, hent, hset⟩ := set_entries_evict C hC _ hinv k v habs hlen
  obtain ⟨tev, h1, h2, h3⟩ := ghost_head_min C ops ev rest hent
  exact ⟨ev, rest, hent, hset, tev, h1, h2, h3⟩

/-- Closed witness for C1: capacity 2, operations set a, set b, get a;
inserting the new key c at capacity evicts b, the least recently touched. -/
theorem lru_capacity_and_lru_eviction_witness :
    1 ≤ 2 ∧
    ((runOps (LRUCache.empty 2)
        [CacheOp.set "a" 0, CacheOp.set "b" 1,
          CacheOp.get (T := Nat) "a"]).entries.length ≤ 2 ∧
      (∀ k v, (runOps (LRUCache.empty 2)
          [CacheOp.set "a" 0, CacheOp.set "b" 1,
            CacheOp.get (T := Nat) "a"]).has k = false →
        (runOps (LRUCache.empty 2)
          [CacheOp.set "a" 0, CacheOp.set "b" 1,
            CacheOp.get (T := Nat) "a"]).entries.length = 2 →
        ∃ ev rest, (runOps (LRUCache.empty 2)
            [CacheOp.set "a" 0, CacheOp.set "b" 1,
              CacheOp.get (T := Nat) "a"]).entries = ev :: rest ∧
          (LRUCache.set (runOps (LRUCache.empty 2)
            [CacheOp.set "a" 0, CacheOp.set "b" 1,
              CacheOp.get (T := Nat) "a"]) k v).entries = rest ++ [(k, v)] ∧
          ∃ tev, touchesAt 2
              [CacheOp.set "a" 0, CacheOp.set "b" 1,
                CacheOp.get (T := Nat) "a"] tev ev.1 ∧
            (∀ j, tev < j → j < (([CacheOp.set "a" 0, CacheOp.set "b" 1,
                CacheOp.get (T := Nat) "a"] : List (CacheOp Nat))).length →
              ¬ touchesAt 2 [CacheOp.set "a" 0, CacheOp.set "b" 1,
                CacheOp.get (T := Nat) "a"] j ev.1) ∧
            (∀ k2 ∈ rest.map Prod.fst, ∃ t2, tev < t2 ∧
              touchesAt 2 [CacheOp.set "a" 0, CacheOp.set "b" 1,
                CacheOp.get (T := Nat) "a"] t2 k2))) :=
  ⟨by decide,
    lru_capacity_and_lru_eviction 2 (by decide)
      [CacheOp.set "a" 0, CacheOp.set "b" 1, CacheOp.get (T := Nat) "a"]⟩

/-! ## Static file handler, from src/server/static.ts

String operations are modelled at the character-list level so that all
definitions evaluate inside the kernel.  Filesystem paths are modelled as
lists of segments; node path.join of the root with sanitized segments is
modelled at the segment level (see joinSegs). -/

namespace Static

def strEndsWith (s suf : String) : Bool :=
  suf.data.isSuffixOf s.data

def strDropRight (s : String) (n : Nat) : String :=
  String.mk (s.data.take (s.data.length - n))

/-- JS String.prototype.includes: substring containment. -/
def containsSubstr (s pat : String) : Bool :=
  (List.range (s.data.length + 1)).any
    (fun i => pat.data.isPrefixOf (s.data.drop i))

/-- urlPath.replace(backslash regex, slash): from resolveFilePath. -/
def replaceBackslashes (l : List Char) : List Char :=
  l.map (fun c => if c = '\\' then '/' else c)

/-- The global replace of the two-or-more-dots regex by the empty string
(from resolveFilePath): every maximal run of at least two dots is removed,
single dots are kept.  `pending` counts the dots of the current run. -/
def sdrGo : Nat → List Char → List Char
  | pending, [] => if pending = 1 then ['.'] else []
  | pending, c :: rest =>
    if c = '.' then sdrGo (pending + 1) rest
    else (if pending = 1 then ['.'] else []) ++ (c :: sdrGo 0 rest)

def stripDotRuns (l : List Char) : List Char := sdrGo 0 l

/-- split('/') at the character level. -/
def splitOnSlash : List Char → List (List Char)
  | [] => [[]]
  | c :: rest =>
    if c = '/' then [] :: splitOnSlash rest
    else
      match splitOnSlash rest with
      | [] => [[c]]
      | s :: ss => (c :: s) :: ss

/-- The sanitized segments of a url path: backslashes to slashes, dot
runs removed, split on slash, empty segments dropped (filter(Boolean)). -/
def urlSegments (urlPath : String) : List String :=
  ((splitOnSlash (stripDotRuns (replaceBackslashes urlPath.data))).filter
    (fun l => !l.isEmpty)).map (fun l => String.mk l)

abbrev Path := List String

/-- node path.join with the root, at the segment level: single-dot
segments vanish, dot-dot segments pop one segment; everything else is
appended.  The safety argument below shows the pop case is unreachable
for sanitized segments. -/
def joinSegs (root : Path) (segs : List String) : Path :=
  segs.foldl (fun acc seg =>
    if seg = "." then acc
    else if seg = ".." then acc.dropLast
    else acc ++ [seg]) root

/-- BunStaticFileHandler.resolveFilePath. -/
def resolveFilePath (root : Path) (urlPath : String) : Path :=
  joinSegs root (urlSegments urlPath)

/-! ### No `..` segment survives sanitization -/

/-- No two adjacent dots anywhere in the character list. -/
def noDD : List Char → Bool
  | [] => true
  | [_] => true
  | a :: b :: rest => !((a == '.') && (b == '.')) && noDD (b :: rest)

theorem noDD_tail (a : Char) (l : List Char) (h : noDD (a :: l) = true) :
    noDD l = true := by
  cases l with
  | nil => rfl
  | cons b t =>
    unfold noDD at h
    rw [Bool.and_eq_true] at h
    exact h.2

theorem noDD_cons_of_ne (c : Char) (l : List Char) (hc : ¬ c = '.')
    (h : noDD l = true) : noDD (c :: l) = true := by
  cases l with
  | nil => rfl
  | cons b t =>
    unfold noDD
    rw [Bool.and_eq_true]
    refine ⟨?_, h⟩
    have hcb : (c == '.') = false := by
      rw [beq_eq_false_iff_ne]; exact hc
    rw [hcb, Bool.false_and]
    rfl

theorem noDD_append_left (l t : List Char) (h : noDD (l ++ t) = true) :
    noDD l = true := by
  induction l with
  | nil => rfl
  | cons a l2 ih =>
    cases l2 with
    | nil => rfl
    | cons b l3 =>
      simp only [List.cons_append] at h
      unfold noDD at h ⊢
      rw [Bool.and_eq_true] at h ⊢
      refine ⟨h.1, ?_⟩
      have h2 : noDD ((b :: l3) ++ t) = true := by
        simpa only [List.cons_append] using h.2
      exact ih h2

theorem noDD_sdrGo (l : List Char) : ∀ p, noDD (sdrGo p l) = true := by
  induction l with
  | nil =>
    intro p
    unfold sdrGo
    by_cases hp : p = 1
    · rw [if_pos hp]; rfl
    · rw [if_neg hp]; rfl
  | cons c rest ih =>
    intro p
    unfold sdrGo
    by_cases hc : c = '.'
    · rw [if_pos hc]
      exact ih (p + 1)
    · rw [if_neg hc]
      have hinner : noDD (c :: sdrGo 0 rest) = true :=
        noDD_cons_of_ne c _ hc (ih 0)
      by_cases hp : p = 1
      · rw [if_pos hp]
        show noDD ('.' :: c :: sdrGo 0 rest) = true
        unfold noDD
        rw [Bool.and_eq_true]
        refine ⟨?_, hinner⟩
        have hcb : (c == '.') = false := by
          rw [beq_eq_false_iff_ne]; exact hc
        rw [hcb, Bool.and_false]
        rfl
      · rw [if_neg hp]
        exact hinner

theorem noDD_stripDotRuns (l : List Char) : noDD (stripDotRuns l) = true :=
  noDD_sdrGo l 0

theorem splitOnSlash_cons_slash (rest : List Char) :
    splitOnSlash ('/' :: rest) = [] :: splitOnSlash rest := by
  simp [splitOnSlash]

theorem splitOnSlash_cons_ne (c : Char) (rest : List Char) (hc : ¬ c = '/') :
    splitOnSlash (c :: rest)
      = match splitOnSlash rest with
        | [] => [[c]]
        | s :: ss => (c :: s) :: ss := by
  conv =>
    lhs
    rw [splitOnSlash]
  rw [if_neg hc]

theorem splitOnSlash_head (l : List Char) :
    ∃ ss, splitOnSlash l
      = l.takeWhile (fun c => !(c == '/')) :: ss := by
  induction l with
  | nil => exact ⟨[], rfl⟩
  | cons c rest ih =>
    by_cases hc : c = '/'
    · subst hc
      refine ⟨splitOnSlash rest, ?_⟩
      rw [splitOnSlash_cons_slash]
      simp [List.takeWhile_cons]
    · obtain ⟨ss, hss⟩ := ih
      rw [splitOnSlash_cons_ne c rest hc, hss]
      refine ⟨ss, ?_⟩
      simp [List.takeWhile_cons, hc]

theorem noDD_mem_splitOnSlash (l : List Char) (h : noDD l = true) :
    ∀ s ∈ splitOnSlash l, noDD s = true := by
  induction l with
  | nil =>
    intro s hs
    unfold splitOnSlash at hs
    have hs2 : s = [] := by simpa using hs
    subst hs2; rfl
  | cons c rest ih =>
    intro s hs
    by_cases hc : c = '/'
    · subst hc
      rw [splitOnSlash_cons_slash] at hs
      rcases List.mem_cons.mp hs with h1 | h1
      · subst h1; rfl
      · exact ih (noDD_tail _ _ h) s h1
    · rw [splitOnSlash_cons_ne c rest hc] at hs
      obtain ⟨ss, hss⟩ := splitOnSlash_head rest
      rw [hss] at hs
      rcases List.mem_cons.mp hs with h1 | h1
      · subst h1
        have hdecomp : (c :: rest.takeWhile (fun x => !(x == '/')))
            ++ rest.dropWhile (fun x => !(x == '/')) = c :: rest := by
          rw [List.cons_append, List.takeWhile_append_dropWhile]
        exact noDD_append_left _ _ (by rw [hdecomp]; exact h)
      · have hmem : s ∈ splitOnSlash rest := by
          rw [hss]; exact List.mem_cons_of_mem _ h1
        exact ih (noDD_tail _ _ h) s hmem

theorem urlSegments_no_dotdot (urlPath : String) :
    ∀ seg ∈ urlSegments urlPath, seg ≠ ".." := by
  intro seg hseg
  unfold urlSegments at hseg
  obtain ⟨l, hl, hmk⟩ := List.mem_map.mp hseg
  have hl2 := List.mem_of_mem_filter hl
  have hnoDD := noDD_mem_splitOnSlash _
    (noDD_stripDotRuns (replaceBackslashes urlPath.data)) l hl2
  intro hcontra
  rw [← hmk] at hcontra
  have hl3 : l = ['.', '.'] := by
    have hdata := congrArg String.data hcontra
    simpa using hdata
  rw [hl3] at hnoDD
  exact (by decide : ¬ (noDD ['.', '.'] = true)) hnoDD

theorem joinSegs_prefix (segs : List String) (hs : ∀ s ∈ segs, s ≠ "..") :
    ∀ root, ∃ t, joinSegs root segs = root ++ t := by
  induction segs with
  | nil => intro root; exact ⟨[], by simp [joinSegs]⟩
  | cons seg rest ih =>
    intro root
    unfold joinSegs
    rw [List.foldl_cons]
    by_cases h1 : seg = "."
    · rw [if_pos h1]
      exact ih (fun s hs2 => hs s (List.mem_cons_of_mem _ hs2)) root
    · rw [if_neg h1, if_neg (hs seg (List.mem_cons_self _ _))]
      obtain ⟨t, ht⟩ := ih (fun s hs2 => hs s (List.mem_cons_of_mem _ hs2))
        (root ++ [seg])
      refine ⟨[seg] ++ t, ?_⟩
      rw [← List.append_assoc]
      exact ht

/-- resolveFilePath never escapes the root: the resolved path always has
the root as a prefix. -/
theorem resolveFilePath_in_root (root : Path) (urlPath : String) :
    ∃ t, resolveFilePath root urlPath = root ++ t :=
  joinSegs_prefix _ (urlSegments_no_dotdot urlPath) root

/-! ### The handler: lookup and serve -/

inductive Encoding where
  | gzip
  | br
deriving DecidableEq

/-- The filesystem as seen through existsSync / statSync / Bun.file. -/
structure FileSystem where
  existsSync : Path → Bool
  isDirectory : Path → Bool
  fileSize : Path → Nat
  fileMtimeMs : Path → Int
  fileContent : Path → String

/-- The handler configuration.  mimeTypes is the merged MIME table
(String extension to type); cacheControl is the configured string or
function (the default strategy is such a function); excluded is the
disjunction of the configured exclude patterns applied to the url path. -/
structure StaticHandler where
  root : Path
  index : String
  compression : Bool
  mimeTypes : String → Option String
  cacheControl : Path → String
  headers : List (String × String)
  excluded : String → Bool

/-- node path.extname on a file name: from the final dot, empty when no
dot or only a leading dot. -/
def extname (name : String) : String :=
  match ((List.range name.data.length).filter
      (fun i => (name.data.drop i).head? == some '.')).getLast? with
  | none => ""
  | some i => if i = 0 then "" else String.mk (name.data.drop i)

def strToLower (s : String) : String :=
  String.mk (s.data.map Char.toLower)

def getMimeType (h : StaticHandler) (filePath : Path) : String :=
  let ext := strToLower (extname ((filePath.getLast?).getD ""))
  (h.mimeTypes ext).getD "application/octet-stream"

/-- Appending a suffix to the path string modifies its last segment. -/
def addSuffix : Path → String → Path
  | [], suf => [suf]
  | [a], suf => [a ++ suf]
  | a :: rest, suf => a :: addSuffix rest suf

/-- filePath.replace(compression suffix regex, empty): strips one final
.br or .gz from the last segment. -/
def stripSegSuffix (s : String) : String :=
  if strEndsWith s ".br" then strDropRight s 3
  else if strEndsWith s ".gz" then strDropRight s 3
  else s

def stripCompressionSuffix : Path → Path
  | [] => []
  | [a] => [stripSegSuffix a]
  | a :: rest => a :: stripCompressionSuffix rest

structure StaticFileResult where
  filePath : Path
  found : Bool
  mimeType : String
  cacheControl : String
  compressed : Option Encoding
  stats : Option (Nat × Int)

/-- The part of lookup before compressed-variant selection: exclusion
check, sanitized resolve, the traversal guard (the source computes
relative(root, filePath) and rejects when it starts with dot-dot or a
slash, that is when the resolved path is not below the root), and the
directory-index append.  none models the uniform not-found result. -/
def lookupBase (h : StaticHandler) (fs : FileSystem) (urlPath : String) :
    Option Path :=
  if h.excluded urlPath then none
  else
    let fp0 := resolveFilePath h.root urlPath
    if !(h.root.isPrefixOf fp0) then none
    else if fs.existsSync fp0 && fs.isDirectory fp0 then
      some (fp0 ++ [h.index])
    else some fp0

def notFoundResult (filePath : Path) (mime : String) : StaticFileResult :=
  ⟨filePath, false, mime, "no-cache", none, none⟩

/-- The compressed-variant selection and existence check of lookup,
given the resolved file path. -/
def lookupWithBase (h : StaticHandler) (fs : FileSystem) (filePath : Path) :
    StaticFileResult :=
  let pair : Path × Option Encoding :=
    if h.compression then
      if fs.existsSync (addSuffix filePath ".br") then
        (addSuffix filePath ".br", some Encoding.br)
      else if fs.existsSync (addSuffix filePath ".gz") then
        (addSuffix filePath ".gz", some Encoding.gzip)
      else (filePath, none)
    else (filePath, none)
  let checkPath := if pair.2.isSome then pair.1 else filePath
  if !(fs.existsSync checkPath) then
    notFoundResult filePath (getMimeType h filePath)
  else
    ⟨checkPath, true, getMimeType h filePath, h.cacheControl filePath,
      pair.2, some (fs.fileSize checkPath, fs.fileMtimeMs checkPath)⟩

/-- BunStaticFileHandler.lookup. -/
def lookup (h : StaticHandler) (fs : FileSystem) (urlPath : String) :
    StaticFileResult :=
  match lookupBase h fs urlPath with
  | none => notFoundResult [] "application/octet-stream"
  | some filePath => lookupWithBase h fs filePath

structure StaticRequest where
  acceptEncoding : Option String
  ifNoneMatch : Option String
  /-- The If-Modified-Since header: absent, or present; a present value
  is the parsed Date, none when the text does not parse (an invalid Date
  compares false and never triggers the 304). -/
  ifModifiedSince : Option (Option Int)

structure StaticResponse where
  status : Nat
  headers : List (String × String)
  bodyPath : Option Path
  body : Option String

/-- JS object key assignment on the headers object. -/
def setHeader (hs : List (String × String)) (k v : String) :
    List (String × String) :=
  hs.filter (fun e => !(e.1 == k)) ++ [(k, v)]

def getHeader (hs : List (String × String)) (k : String) : Option String :=
  (hs.find? (fun e => e.1 == k)).map Prod.snd

def computeEtag (size : Nat) (mtimeMs : Int) : String :=
  "\"" ++ toString size ++ "-" ++ toString mtimeMs ++ "\""

/-- Date.prototype.toUTCString, abstracted to an injective rendering of
the millisecond value; no claim depends on the textual format. -/
def mtimeUTCString (ms : Int) : String := "@" ++ toString ms

def encodingHeaderValue : Encoding → String
  | Encoding.br => "br"
  | Encoding.gzip => "gzip"

/-- The Accept-Encoding gate of serve: a compressed result is used only
when the request declares (as a substring, JS includes) the matching
encoding. -/
def negotiateEncoding (result : StaticFileResult)
    (request : Option StaticRequest) : Bool :=
  match result.compressed, request with
  | some Encoding.br, some r =>
    containsSubstr (r.acceptEncoding.getD "") "br"
  | some Encoding.gzip, some r =>
    containsSubstr (r.acceptEncoding.getD "") "gzip"
  | _, _ => false

/-- The headers object of serve: Content-Type, Cache-Control, the custom
headers, Content-Encoding when a compressed variant is used, and
Last-Modified plus ETag when stats are present. -/
def serveHeaders (h : StaticHandler) (result : StaticFileResult)
    (useCompressed : Bool) : List (String × String) :=
  let headers0 := setHeader (setHeader [] "Content-Type" result.mimeType)
    "Cache-Control" result.cacheControl
  let headers1 := h.headers.foldl
    (fun acc kv => setHeader acc kv.1 kv.2) headers0
  let headers2 :=
    match (if useCompressed then result.compressed else none) with
    | some enc => setHeader headers1 "Content-Encoding"
        (encodingHeaderValue enc)
    | none => headers1
  match result.stats with
  | some st => setHeader
      (setHeader headers2 "Last-Modified" (mtimeUTCString st.2))
      "ETag" (computeEtag st.1 st.2)
  | none => headers2

/-- The body path of serve: the compressed file when the negotiation
succeeded, otherwise the suffix-stripped raw path. -/
def servePath (result : StaticFileResult)
    (request : Option StaticRequest) : Path :=
  if negotiateEncoding result request then result.filePath
  else stripCompressionSuffix result.filePath

/-- The If-Modified-Since comparison of serve: a parsed date that the
modification time does not exceed yields 304; an invalid date (none)
falls through to the 200 response. -/
def serveImsCheck (h : StaticHandler) (result : StaticFileResult)
    (r : StaticRequest) (st : Nat × Int) (d : Option Int) :
    Nat × List (String × String) × Option Path :=
  match d with
  | some t =>
    if st.2 ≤ t then
      (304, serveHeaders h result (negotiateEncoding result (some r)), none)
    else
      (200, serveHeaders h result (negotiateEncoding result (some r)),
        some (servePath result (some r)))
  | none =>
    (200, serveHeaders h result (negotiateEncoding result (some r)),
      some (servePath result (some r)))

/-- The conditional-request handling of serve, reached when a request and
stats are both present: If-None-Match against the computed ETag, then
If-Modified-Since against the modification time. -/
def serveConditional (h : StaticHandler) (result : StaticFileResult)
    (r : StaticRequest) (st : Nat × Int) :
    Nat × List (String × String) × Option Path :=
  if r.ifNoneMatch == some (computeEtag st.1 st.2) then
    (304, serveHeaders h result (negotiateEncoding result (some r)), none)
  else
    match r.ifModifiedSince with
    | some d => serveImsCheck h result r st d
    | none =>
      (200, serveHeaders h result (negotiateEncoding result (some r)),
        some (servePath result (some r)))

/-- BunStaticFileHandler.serve given the lookup result: negotiates the
encoding against Accept-Encoding, builds the headers, and answers the
conditional requests.  Returns status, headers and the body file path
(none for the 304 responses, which carry a null body). -/
def serveCore (h : StaticHandler) (result : StaticFileResult)
    (request : Option StaticRequest) :
    Option (Nat × List (String × String) × Option Path) :=
  if !result.found then none
  else
    match request, result.stats with
    | some r, some st => some (serveConditional h result r st)
    | req, _ =>
      some (200, serveHeaders h result (negotiateEncoding result req),
        some (servePath result req))

/-- BunStaticFileHandler.serve; the body is the file at the body path. -/
def serve (h : StaticHandler) (fs : FileSystem) (urlPath : String)
    (request : Option StaticRequest) : Option StaticResponse :=
  (serveCore h (lookup h fs urlPath) request).map
    (fun x => ⟨x.1, x.2.1, x.2.2, x.2.2.map fs.fileContent⟩)

/-! ### Header-object lemmas -/

theorem find?_append_opt {α : Type _} (l1 l2 : List α) (p : α → Bool) :
    (l1 ++ l2).find? p = ((l1.find? p).orElse (fun _ => l2.find? p)) := by
  induction l1 with
  | nil => rfl
  | cons a rest ih =>
    by_cases hpa : p a = true
    · rw [List.cons_append, List.find?_cons_of_pos _ hpa,
        List.find?_cons_of_pos _ hpa]
      rfl
    · rw [List.cons_append, List.find?_cons_of_neg _ hpa,
        List.find?_cons_of_neg _ hpa]
      exact ih

theorem find?_filter_preserve {α : Type _} (p q : α → Bool) (l : List α)
    (h : ∀ x, p x = true → q x = true) :
    (l.filter q).find? p = l.find? p := by
  induction l with
  | nil => rfl
  | cons a rest ih =>
    rw [List.filter_cons]
    by_cases hpa : p a = true
    · rw [if_pos (h a hpa), List.find?_cons_of_pos _ hpa,
        List.find?_cons_of_pos _ hpa]
    · by_cases hqa : q a = true
      · rw [if_pos hqa, List.find?_cons_of_neg _ hpa,
          List.find?_cons_of_neg _ hpa]
        exact ih
      · rw [if_neg hqa, List.find?_cons_of_neg _ hpa]
        exact ih

theorem getHeader_setHeader_same (hs : List (String × String)) (k v : String) :
    getHeader (setHeader hs k v) k = some v := by
  unfold getHeader setHeader
  rw [find?_append_opt]
  have h1 : ((hs.filter (fun e => !(e.1 == k))).find?
      (fun e => e.1 == k)) = none := by
    rw [List.find?_eq_none]
    intro x hx
    have h2 := List.of_mem_filter hx
    simp at h2
    simp [h2]
  rw [h1]
  have h2 : (([(k, v)] : List (String × String)).find?
      (fun e => e.1 == k)) = some (k, v) := by
    rw [List.find?_cons_of_pos _ (by simp)]
  simp [h2]

theorem getHeader_setHeader_other (hs : List (String × String))
    (k k2 v : String) (hne : k2 ≠ k) :
    getHeader (setHeader hs k2 v) k = getHeader hs k := by
  unfold getHeader setHeader
  rw [find?_append_opt,
    find?_filter_preserve (fun e => e.1 == k) (fun e => !(e.1 == k2)) hs
      (by
        intro x hx
        simp at hx
        simp [hx]
        exact fun hcontra => hne hcontra.symm)]
  have h2 : (([(k2, v)] : List (String × String)).find?
      (fun e => e.1 == k)) = none := by
    rw [List.find?_cons_of_neg _ (by simp [hne])]
    rfl
  cases hf : hs.find? (fun e => e.1 == k) <;> simp [h2]

theorem getHeader_foldl_setHeader (hs2 : List (String × String)) (k : String)
    (hk : ∀ kv ∈ hs2, kv.1 ≠ k) :
    ∀ acc, getHeader (hs2.foldl (fun acc kv => setHeader acc kv.1 kv.2) acc) k
      = getHeader acc k := by
  induction hs2 with
  | nil => intro acc; rfl
  | cons kv rest ih =>
    intro acc
    rw [List.foldl_cons]
    rw [ih (fun kv2 h2 => hk kv2 (List.mem_cons_of_mem _ h2))]
    exact getHeader_setHeader_other acc k kv.1 kv.2
      (hk kv (List.mem_cons_self _ _))

/-- The Content-Encoding header of the built headers object, when the
custom headers do not themselves name Content-Encoding. -/
theorem serveHeaders_contentEncoding (h : StaticHandler)
    (result : StaticFileResult) (u : Bool)
    (hch : ∀ kv ∈ h.headers, kv.1 ≠ "Content-Encoding") :
    getHeader (serveHeaders h result u) "Content-Encoding"
      = (if u then result.compressed.map encodingHeaderValue else none) := by
  unfold serveHeaders
  have hbase : getHeader (h.headers.foldl
      (fun acc kv => setHeader acc kv.1 kv.2)
      (setHeader (setHeader [] "Content-Type" result.mimeType)
        "Cache-Control" result.cacheControl)) "Content-Encoding" = none := by
    rw [getHeader_foldl_setHeader h.headers _ hch,
      getHeader_setHeader_other _ _ _ _ (by decide),
      getHeader_setHeader_other _ _ _ _ (by decide)]
    rfl
  cases hce : (if u then result.compressed else none) with
  | none =>
    have hrhs : (if u then result.compressed.map encodingHeaderValue
        else none) = none := by
      cases hu : u
      · simp
      · rw [hu] at hce
        simp only [if_true] at hce
        simp [hce]
    rw [hrhs]
    cases hst : result.stats with
    | none => exact hbase
    | some st =>
      rw [getHeader_setHeader_other _ _ _ _ (by decide),
        getHeader_setHeader_other _ _ _ _ (by decide)]
      exact hbase
  | some enc =>
    have hrhs : (if u then result.compressed.map encodingHeaderValue
        else none) = some (encodingHeaderValue enc) := by
      cases hu : u
      · rw [hu] at hce
        simp at hce
      · rw [hu] at hce
        simp only [if_true] at hce
        simp [hce]
    rw [hrhs]
    cases hst : result.stats with
    | none => exact getHeader_setHeader_same _ _ _
    | some st =>
      rw [getHeader_setHeader_other _ _ _ _ (by decide),
        getHeader_setHeader_other _ _ _ _ (by decide)]
      exact getHeader_setHeader_same _ _ _

/-- The ETag header of the built headers object. -/
theorem serveHeaders_etag (h : StaticHandler) (result : StaticFileResult)
    (u : Bool) (st : Nat × Int) (hst : result.stats = some st) :
    getHeader (serveHeaders h result u) "ETag"
      = some (computeEtag st.1 st.2) := by
  unfold serveHeaders
  rw [hst]
  exact getHeader_setHeader_same _ _ _

theorem isPrefixOf_append (root t : Path) :
    root.isPrefixOf (root ++ t) = true := by
  induction root with
  | nil => simp [List.isPrefixOf]
  | cons a r ih => simp [List.isPrefixOf, ih]

theorem addSuffix_append (root t : Path) (suf : String) (ht : t ≠ []) :
    addSuffix (root ++ t) suf = root ++ addSuffix t suf := by
  induction root with
  | nil => rfl
  | cons a r ih =>
    obtain ⟨b, rt, hbt⟩ := List.exists_cons_of_ne_nil
      (show r ++ t ≠ [] by simp [ht])
    show addSuffix (a :: (r ++ t)) suf = a :: (r ++ addSuffix t suf)
    rw [hbt]
    show a :: addSuffix (b :: rt) suf = a :: (r ++ addSuffix t suf)
    rw [← hbt, ih]

theorem lookupBase_eq (h : StaticHandler) (fs : FileSystem) (urlPath : String)
    (hne : h.excluded urlPath = false) :
    lookupBase h fs urlPath =
      (if fs.existsSync (resolveFilePath h.root urlPath)
          && fs.isDirectory (resolveFilePath h.root urlPath) then
        some (resolveFilePath h.root urlPath ++ [h.index])
      else some (resolveFilePath h.root urlPath)) := by
  unfold lookupBase
  rw [if_neg (by rw [hne]; simp)]
  obtain ⟨t, ht⟩ := resolveFilePath_in_root h.root urlPath
  have hpre : (h.root.isPrefixOf (resolveFilePath h.root urlPath)) = true := by
    rw [ht]; exact isPrefixOf_append h.root t
  rw [if_neg (by rw [hpre]; simp)]

theorem lookupBase_in_root (h : StaticHandler) (fs : FileSystem)
    (urlPath : String) (base : Path)
    (hb : lookupBase h fs urlPath = some base) :
    ∃ t, base = h.root ++ t ∧
      (t = [] → resolveFilePath h.root urlPath = h.root) ∧
      (t ≠ [] → True) := by
  by_cases he : h.excluded urlPath = true
  · unfold lookupBase at hb
    rw [if_pos he] at hb
    exact absurd hb (by simp)
  · rw [lookupBase_eq h fs urlPath (by simpa using he)] at hb
    obtain ⟨t0, ht0⟩ := resolveFilePath_in_root h.root urlPath
    by_cases hdir : (fs.existsSync (resolveFilePath h.root urlPath)
        && fs.isDirectory (resolveFilePath h.root urlPath)) = true
    · rw [if_pos hdir] at hb
      have hbase : base = h.root ++ (t0 ++ [h.index]) := by
        have hb2 : base = resolveFilePath h.root urlPath ++ [h.index] := by
          injection hb.symm
        rw [hb2, ht0, List.append_assoc]
      exact ⟨t0 ++ [h.index], hbase, by simp, fun _ => trivial⟩
    · rw [if_neg hdir] at hb
      have hbase : base = h.root ++ t0 := by
        have hb2 : base = resolveFilePath h.root urlPath := by
          injection hb.symm
        rw [hb2, ht0]
      refine ⟨t0, hbase, ?_, fun _ => trivial⟩
      intro ht0nil
      rw [ht0, ht0nil]
      simp

/-! ### Full case analysis of lookup past the base resolution -/

theorem lookup_eq_withBase (h : StaticHandler) (fs : FileSystem)
    (urlPath : String) (base : Path)
    (hb : lookupBase h fs urlPath = some base) :
    lookup h fs urlPath = lookupWithBase h fs base := by
  unfold lookup
  rw [hb]

theorem lookup_cases (h : StaticHandler) (fs : FileSystem) (urlPath : String)
    (base : Path) (hb : lookupBase h fs urlPath = some base) :
    (h.compression = true ∧ fs.existsSync (addSuffix base ".br") = true ∧
      lookup h fs urlPath =
        ⟨addSuffix base ".br", true, getMimeType h base, h.cacheControl base,
          some Encoding.br,
          some (fs.fileSize (addSuffix base ".br"),
            fs.fileMtimeMs (addSuffix base ".br"))⟩) ∨
    (h.compression = true ∧ fs.existsSync (addSuffix base ".br") = false ∧
      fs.existsSync (addSuffix base ".gz") = true ∧
      lookup h fs urlPath =
        ⟨addSuffix base ".gz", true, getMimeType h base, h.cacheControl base,
          some Encoding.gzip,
          some (fs.fileSize (addSuffix base ".gz"),
            fs.fileMtimeMs (addSuffix base ".gz"))⟩) ∨
    ((h.compression = false ∨
        (fs.existsSync (addSuffix base ".br") = false ∧
         fs.existsSync (addSuffix base ".gz") = false)) ∧
      ((fs.existsSync base = true ∧
        lookup h fs urlPath =
          ⟨base, true, getMimeType h base, h.cacheControl base, none,
            some (fs.fileSize base, fs.fileMtimeMs base)⟩) ∨
       (fs.existsSync base = false ∧
        lookup h fs urlPath = notFoundResult base (getMimeType h base)))) := by
  rw [lookup_eq_withBase h fs urlPath base hb]
  unfold lookupWithBase
  by_cases hc : h.compression = true
  · by_cases hbr : fs.existsSync (addSuffix base ".br") = true
    · left
      refine ⟨hc, hbr, ?_⟩
      rw [if_pos hc, if_pos hbr]
      simp [hbr]
    · by_cases hgz : fs.existsSync (addSuffix base ".gz") = true
      · right; left
        refine ⟨hc, by simpa using hbr, hgz, ?_⟩
        rw [if_pos hc, if_neg hbr, if_pos hgz]
        simp [hgz]
      · right; right
        refine ⟨Or.inr ⟨by simpa using hbr, by simpa using hgz⟩, ?_⟩
        rw [if_pos hc, if_neg hbr, if_neg hgz]
        by_cases hex : fs.existsSync base = true
        · left
          refine ⟨hex, ?_⟩
          simp [hex]
        · right
          refine ⟨by simpa using hex, ?_⟩
          simp [Bool.eq_false_iff.mp (by simpa using hex)]
  · have hcf : h.compression = false := by simpa using hc
    right; right
    refine ⟨Or.inl hcf, ?_⟩
    rw [if_neg hc]
    by_cases hex : fs.existsSync base = true
    · left
      refine ⟨hex, ?_⟩
      simp [hex]
    · right
      refine ⟨by simpa using hex, ?_⟩
      simp [Bool.eq_false_iff.mp (by simpa using hex)]

theorem lookup_not_found_of_base_none (h : StaticHandler) (fs : FileSystem)
    (urlPath : String) (hb : lookupBase h fs urlPath = none) :
    lookup h fs urlPath = notFoundResult [] "application/octet-stream" := by
  unfold lookup
  rw [hb]

/-- Whenever lookup reports an existing file it also reports stats. -/
theorem lookup_found_stats (h : StaticHandler) (fs : FileSystem)
    (urlPath : String) (hfound : (lookup h fs urlPath).found = true) :
    ∃ st, (lookup h fs urlPath).stats = some st := by
  cases hb : lookupBase h fs urlPath with
  | none =>
    rw [lookup_not_found_of_base_none h fs urlPath hb] at hfound
    exact absurd hfound (by simp [notFoundResult])
  | some base =>
    rcases lookup_cases h fs urlPath base hb with
      ⟨_, _, hL⟩ | ⟨_, _, _, hL⟩ | ⟨_, ⟨_, hL⟩ | ⟨_, hL⟩⟩
    · rw [hL]; exact ⟨_, rfl⟩
    · rw [hL]; exact ⟨_, rfl⟩
    · rw [hL]; exact ⟨_, rfl⟩
    · rw [hL] at hfound
      exact absurd hfound (by simp [notFoundResult])


theorem lookup_filePath_shape (h : StaticHandler) (fs : FileSystem)
    (urlPath : String) (base : Path)
    (hb : lookupBase h fs urlPath = some base) :
    (lookup h fs urlPath).filePath = base ∨
    (lookup h fs urlPath).filePath = addSuffix base ".br" ∨
    (lookup h fs urlPath).filePath = addSuffix base ".gz" := by
  rcases lookup_cases h fs urlPath base hb with
    ⟨_, _, hL⟩ | ⟨_, _, _, hL⟩ | ⟨_, ⟨_, hL⟩ | ⟨_, hL⟩⟩
  · right; left; rw [hL]
  · right; right; rw [hL]
  · left; rw [hL]
  · left; rw [hL]; rfl

/-- C2 (amended): whenever lookup reports an existing file, the reported
path is inside the configured root (the root or below it), except in the
degenerate configuration where the sanitized url resolves to the root
itself, the root is not a directory, and a compressed sibling of the root
path (root plus .br or .gz) exists: only then can the reported path be
that sibling, which lies outside the root.  In particular no dot-dot
traversal ever escapes. -/
theorem static_lookup_root_containment (h : StaticHandler) (fs : FileSystem)
    (urlPath : String)
    (hfound : (lookup h fs urlPath).found = true) :
    (∃ t, (lookup h fs urlPath).filePath = h.root ++ t) ∨
    (resolveFilePath h.root urlPath = h.root ∧
      ((lookup h fs urlPath).filePath = addSuffix h.root ".br" ∨
       (lookup h fs urlPath).filePath = addSuffix h.root ".gz")) := by
  cases hb : lookupBase h fs urlPath with
  | none =>
    unfold lookup at hfound
    rw [hb] at hfound
    exact absurd hfound (by simp [notFoundResult])
  | some base =>
    obtain ⟨t, hbase, htnil, _⟩ := lookupBase_in_root h fs urlPath base hb
    rcases lookup_filePath_shape h fs urlPath base hb with hfp | hfp | hfp
    · exact Or.inl ⟨t, by rw [hfp, hbase]⟩
    · by_cases htz : t = []
      · refine Or.inr ⟨htnil htz, Or.inl ?_⟩
        rw [hfp, hbase, htz]
        simp
      · refine Or.inl ⟨addSuffix t ".br", ?_⟩
        rw [hfp, hbase, addSuffix_append h.root t _ htz]
    · by_cases htz : t = []
      · refine Or.inr ⟨htnil htz, Or.inr ?_⟩
        rw [hfp, hbase, htz]
        simp
      · refine Or.inl ⟨addSuffix t ".gz", ?_⟩
        rw [hfp, hbase, addSuffix_append h.root t _ htz]

/-- The concrete configuration of the C2 counterexample: the root path
names a regular file and a sibling with the .br suffix exists. -/
def escapeHandler : StaticHandler :=
  ⟨["srv", "www"], "index.html", true, fun _ => none,
    fun _ => "public, max-age=86400", [], fun _ => false⟩

def escapeFs : FileSystem :=
  ⟨fun p => p == ["srv", "www"] || p == ["srv", "www.br"],
    fun _ => false, fun _ => 4, fun _ => 1000, fun _ => "content"⟩

/-- C2 counterexample: for the url path slash-dot-dot (which contains a
dot-dot segment), lookup on this configuration returns exists true with
file path srv/www.br, and that path is not inside the root srv/www. -/
theorem static_lookup_escape_counterexample :
    (lookup escapeHandler escapeFs "/..").found = true ∧
    (lookup escapeHandler escapeFs "/..").filePath = ["srv", "www.br"] ∧
    ((["srv", "www"] : Path).isPrefixOf
      (lookup escapeHandler escapeFs "/..").filePath) = false := by
  refine ⟨?_, ?_, ?_⟩ <;> decide

/-! ### serve lemmas -/

theorem serveCore_eq_conditional (h : StaticHandler)
    (result : StaticFileResult) (r : StaticRequest) (st : Nat × Int)
    (hfound : result.found = true) (hstats : result.stats = some st) :
    serveCore h result (some r) = some (serveConditional h result r st) := by
  unfold serveCore
  rw [if_neg (by rw [hfound]; simp), hstats]

theorem serve_some_inv (h : StaticHandler) (fs : FileSystem)
    (urlPath : String) (request : Option StaticRequest)
    (resp : StaticResponse)
    (hresp : serve h fs urlPath request = some resp) :
    ∃ x, serveCore h (lookup h fs urlPath) request = some x ∧
      resp.status = x.1 ∧ resp.headers = x.2.1 ∧ resp.bodyPath = x.2.2 ∧
      resp.body = x.2.2.map fs.fileContent := by
  unfold serve at hresp
  cases hsc : serveCore h (lookup h fs urlPath) request with
  | none => rw [hsc] at hresp; exact absurd hresp (by simp)
  | some x =>
    rw [hsc] at hresp
    simp only [Option.map_some'] at hresp
    have hr := Option.some.inj hresp
    exact ⟨x, rfl, by rw [← hr], by rw [← hr], by rw [← hr], by rw [← hr]⟩

theorem serveCore_some_found (h : StaticHandler) (result : StaticFileResult)
    (request : Option StaticRequest)
    (x : Nat × List (String × String) × Option Path)
    (hx : serveCore h result request = some x) : result.found = true := by
  by_cases hf : result.found = true
  · exact hf
  · unfold serveCore at hx
    rw [if_pos (by simp [Bool.eq_false_iff.mp (by simpa using hf)])] at hx
    exact absurd hx (by simp)

theorem serveConditional_eq_inm (h : StaticHandler)
    (result : StaticFileResult) (r : StaticRequest) (st : Nat × Int)
    (hinm : (r.ifNoneMatch == some (computeEtag st.1 st.2)) = true) :
    serveConditional h result r st
      = (304, serveHeaders h result (negotiateEncoding result (some r)),
          none) := by
  unfold serveConditional
  rw [if_pos hinm]

theorem serveConditional_eq_ims (h : StaticHandler)
    (result : StaticFileResult) (r : StaticRequest) (st : Nat × Int)
    (d : Option Int)
    (hinm : ¬ ((r.ifNoneMatch == some (computeEtag st.1 st.2)) = true))
    (hims : r.ifModifiedSince = some d) :
    serveConditional h result r st = serveImsCheck h result r st d := by
  unfold serveConditional
  rw [if_neg hinm, hims]

theorem serveConditional_eq_plain (h : StaticHandler)
    (result : StaticFileResult) (r : StaticRequest) (st : Nat × Int)
    (hinm : ¬ ((r.ifNoneMatch == some (computeEtag st.1 st.2)) = true))
    (hims : r.ifModifiedSince = none) :
    serveConditional h result r st
      = (200, serveHeaders h result (negotiateEncoding result (some r)),
          some (servePath result (some r))) := by
  unfold serveConditional
  rw [if_neg hinm, hims]

theorem serveImsCheck_spec (h : StaticHandler) (result : StaticFileResult)
    (r : StaticRequest) (st : Nat × Int) (d : Option Int) :
    (serveImsCheck h result r st d).2.1
      = serveHeaders h result (negotiateEncoding result (some r)) ∧
    ((serveImsCheck h result r st d).1 = 304 ∨
      (serveImsCheck h result r st d).1 = 200) ∧
    ((serveImsCheck h result r st d).1 = 304 →
      (serveImsCheck h result r st d).2.2 = none) ∧
    ((serveImsCheck h result r st d).1 = 200 →
      (serveImsCheck h result r st d).2.2
        = some (servePath result (some r))) := by
  cases d with
  | none =>
    exact ⟨rfl, Or.inr rfl, fun hcon => by simp [serveImsCheck] at hcon,
      fun _ => rfl⟩
  | some t =>
    have heq : serveImsCheck h result r st (some t)
        = if st.2 ≤ t then
            (304, serveHeaders h result (negotiateEncoding result (some r)),
              none)
          else
            (200, serveHeaders h result (negotiateEncoding result (some r)),
              some (servePath result (some r))) := rfl
    rw [heq]
    by_cases hle : st.2 ≤ t
    · rw [if_pos hle]
      exact ⟨rfl, Or.inl rfl, fun _ => rfl, by simp⟩
    · rw [if_neg hle]
      exact ⟨rfl, Or.inr rfl, by simp, fun _ => rfl⟩

/-- Decomposition of the conditional step: every outcome carries the
negotiated headers, a 304 has no body, and a 200 carries the negotiated
body path. -/
theorem serveConditional_spec (h : StaticHandler)
    (result : StaticFileResult) (r : StaticRequest) (st : Nat × Int) :
    (serveConditional h result r st).2.1
      = serveHeaders h result (negotiateEncoding result (some r)) ∧
    ((serveConditional h result r st).1 = 304 ∨
      (serveConditional h result r st).1 = 200) ∧
    ((serveConditional h result r st).1 = 304 →
      (serveConditional h result r st).2.2 = none) ∧
    ((serveConditional h result r st).1 = 200 →
      (serveConditional h result r st).2.2
        = some (servePath result (some r))) := by
  by_cases hinm : (r.ifNoneMatch == some (computeEtag st.1 st.2)) = true
  · rw [serveConditional_eq_inm h result r st hinm]
    exact ⟨rfl, Or.inl rfl, fun _ => rfl, by simp⟩
  · cases hims : r.ifModifiedSince with
    | none =>
      rw [serveConditional_eq_plain h result r st hinm hims]
      exact ⟨rfl, Or.inr rfl, by simp, fun _ => rfl⟩
    | some d =>
      rw [serveConditional_eq_ims h result r st d hinm hims]
      exact serveImsCheck_spec h result r st d

/-- Every successful serveCore outcome: negotiated headers, 200 or 304,
no body on 304, negotiated body path on 200. -/
theorem serveCore_some_spec (h : StaticHandler) (result : StaticFileResult)
    (request : Option StaticRequest)
    (x : Nat × List (String × String) × Option Path)
    (hx : serveCore h result request = some x) :
    x.2.1 = serveHeaders h result (negotiateEncoding result request) ∧
    (x.1 = 304 ∨ x.1 = 200) ∧
    (x.1 = 304 → x.2.2 = none) ∧
    (x.1 = 200 → x.2.2 = some (servePath result request)) := by
  have hfound := serveCore_some_found h result request x hx
  cases request with
  | none =>
    unfold serveCore at hx
    rw [if_neg (by rw [hfound]; simp)] at hx
    cases hst : result.stats with
    | none =>
      rw [hst] at hx
      have hxv := Option.some.inj hx
      rw [← hxv]
      exact ⟨rfl, Or.inr rfl, by simp, fun _ => rfl⟩
    | some st =>
      rw [hst] at hx
      have hxv := Option.some.inj hx
      rw [← hxv]
      exact ⟨rfl, Or.inr rfl, by simp, fun _ => rfl⟩
  | some r =>
    cases hst : result.stats with
    | none =>
      unfold serveCore at hx
      rw [if_neg (by rw [hfound]; simp), hst] at hx
      have hxv := Option.some.inj hx
      rw [← hxv]
      exact ⟨rfl, Or.inr rfl, by simp, fun _ => rfl⟩
    | some st =>
      rw [serveCore_eq_conditional h result r st hfound hst] at hx
      have hxv := Option.some.inj hx
      rw [← hxv]
      obtain ⟨h1, h2, h3, h4⟩ := serveConditional_spec h result r st
      exact ⟨h1, h2, h3, h4⟩

theorem lookup_base_of_found (h : StaticHandler) (fs : FileSystem)
    (urlPath : String) (hfound : (lookup h fs urlPath).found = true) :
    ∃ base, lookupBase h fs urlPath = some base := by
  cases hb : lookupBase h fs urlPath with
  | none =>
    rw [lookup_not_found_of_base_none h fs urlPath hb] at hfound
    exact absurd hfound (by simp [notFoundResult])
  | some base => exact ⟨base, rfl⟩

theorem negotiateEncoding_none (result : StaticFileResult)
    (request : Option StaticRequest) (hc : result.compressed = none) :
    negotiateEncoding result request = false := by
  unfold negotiateEncoding
  rw [hc]

theorem negotiateEncoding_br (result : StaticFileResult) (r : StaticRequest)
    (hc : result.compressed = some Encoding.br) :
    negotiateEncoding result (some r)
      = containsSubstr (r.acceptEncoding.getD "") "br" := by
  unfold negotiateEncoding
  rw [hc]

theorem negotiateEncoding_gzip (result : StaticFileResult) (r : StaticRequest)
    (hc : result.compressed = some Encoding.gzip) :
    negotiateEncoding result (some r)
      = containsSubstr (r.acceptEncoding.getD "") "gzip" := by
  unfold negotiateEncoding
  rw [hc]

/-- C6: a response carries a Content-Encoding header (br or gzip) and the
compressed file body only when the matching compressed sibling exists on
disk and the request's Accept-Encoding contains that encoding; with both
siblings on disk the .br variant is preferred over .gz; otherwise the
suffix-stripped raw file path is served with no Content-Encoding header.
The configured custom headers are assumed not to name Content-Encoding
themselves. -/
theorem serve_compression_negotiation (h : StaticHandler) (fs : FileSystem)
    (urlPath : String) (r : StaticRequest) (resp : StaticResponse)
    (hch : ∀ kv ∈ h.headers, kv.1 ≠ "Content-Encoding")
    (hresp : serve h fs urlPath (some r) = some resp) :
    (getHeader resp.headers "Content-Encoding" = some "br" ↔
      ((lookup h fs urlPath).compressed = some Encoding.br ∧
        containsSubstr (r.acceptEncoding.getD "") "br" = true)) ∧
    (getHeader resp.headers "Content-Encoding" = some "gzip" ↔
      ((lookup h fs urlPath).compressed = some Encoding.gzip ∧
        containsSubstr (r.acceptEncoding.getD "") "gzip" = true)) ∧
    (∀ enc, (lookup h fs urlPath).compressed = some enc →
      ∃ base, lookupBase h fs urlPath = some base ∧
        (lookup h fs urlPath).filePath
          = addSuffix base (if enc = Encoding.br then ".br" else ".gz") ∧
        fs.existsSync ((lookup h fs urlPath).filePath) = true) ∧
    (∀ base, lookupBase h fs urlPath = some base → h.compression = true →
      fs.existsSync (addSuffix base ".br") = true →
      (lookup h fs urlPath).compressed = some Encoding.br) ∧
    (getHeader resp.headers "Content-Encoding" = none → resp.status = 200 →
      resp.bodyPath
        = some (stripCompressionSuffix (lookup h fs urlPath).filePath)) ∧
    (∀ e, getHeader resp.headers "Content-Encoding" = some e →
      resp.status = 200 →
      resp.bodyPath = some ((lookup h fs urlPath).filePath)) := by
  obtain ⟨x, hx, hst, hhd, hbp, hbody⟩ :=
    serve_some_inv h fs urlPath (some r) resp hresp
  have hfound := serveCore_some_found h _ (some r) x hx
  obtain ⟨hxh, _, _, hx200⟩ := serveCore_some_spec h _ (some r) x hx
  have hheaders : resp.headers = serveHeaders h (lookup h fs urlPath)
      (negotiateEncoding (lookup h fs urlPath) (some r)) := by
    rw [hhd, hxh]
  have hCE : getHeader resp.headers "Content-Encoding"
      = (if negotiateEncoding (lookup h fs urlPath) (some r) then
          (lookup h fs urlPath).compressed.map encodingHeaderValue
        else none) := by
    rw [hheaders]
    exact serveHeaders_contentEncoding h _ _ hch
  refine ⟨?_, ?_, ?_, ?_, ?_, ?_⟩
  · rw [hCE]
    cases hcomp : (lookup h fs urlPath).compressed with
    | none =>
      rw [negotiateEncoding_none _ _ hcomp]
      simp
    | some enc =>
      cases enc with
      | br =>
        rw [negotiateEncoding_br _ _ hcomp]
        by_cases hsub : containsSubstr (r.acceptEncoding.getD "") "br" = true
        · rw [hsub]
          simp [hcomp, hsub, encodingHeaderValue]
        · rw [Bool.eq_false_iff.mpr hsub]
          simp [hsub]
      | gzip =>
        rw [negotiateEncoding_gzip _ _ hcomp]
        by_cases hsub : containsSubstr (r.acceptEncoding.getD "") "gzip" = true
        · rw [hsub]
          simp [hcomp, encodingHeaderValue]
        · rw [Bool.eq_false_iff.mpr hsub]
          simp [hcomp]
  · rw [hCE]
    cases hcomp : (lookup h fs urlPath).compressed with
    | none =>
      rw [negotiateEncoding_none _ _ hcomp]
      simp
    | some enc =>
      cases enc with
      | br =>
        rw [negotiateEncoding_br _ _ hcomp]
        by_cases hsub : containsSubstr (r.acceptEncoding.getD "") "br" = true
        · rw [hsub]
          simp [hcomp, encodingHeaderValue]
        · rw [Bool.eq_false_iff.mpr hsub]
          simp [hcomp]
      | gzip =>
        rw [negotiateEncoding_gzip _ _ hcomp]
        by_cases hsub : containsSubstr (r.acceptEncoding.getD "") "gzip" = true
        · rw [hsub]
          simp [hcomp, hsub, encodingHeaderValue]
        · rw [Bool.eq_false_iff.mpr hsub]
          simp [hsub]
  · intro enc hcomp
    obtain ⟨base, hb⟩ := lookup_base_of_found h fs urlPath hfound
    refine ⟨base, hb, ?_⟩
    rcases lookup_cases h fs urlPath base hb with
      ⟨_, hbr, hL⟩ | ⟨_, _, hgz, hL⟩ | ⟨_, ⟨_, hL⟩ | ⟨_, hL⟩⟩
    · rw [hL] at hcomp ⊢
      have henc : enc = Encoding.br := by
        have := Option.some.inj hcomp
        exact this.symm
      subst henc
      refine ⟨?_, hbr⟩
      rw [if_pos rfl]
    · rw [hL] at hcomp ⊢
      have henc : enc = Encoding.gzip := by
        have := Option.some.inj hcomp
        exact this.symm
      subst henc
      refine ⟨?_, hgz⟩
      rw [if_neg (by decide : ¬ Encoding.gzip = Encoding.br)]
    · rw [hL] at hcomp
      exact absurd hcomp (by simp)
    · rw [hL] at hfound
      exact absurd hfound (by simp [notFoundResult])
  · intro base hb hc hbr
    rcases lookup_cases h fs urlPath base hb with
      ⟨_, _, hL⟩ | ⟨_, hbr2, _, hL⟩ | ⟨hor, _⟩
    · rw [hL]
    · rw [hbr] at hbr2
      exact absurd hbr2 (by simp)
    · rcases hor with hcf | ⟨hbr2, _⟩
      · rw [hc] at hcf
        exact absurd hcf (by simp)
      · rw [hbr] at hbr2
        exact absurd hbr2 (by simp)
  · intro hnone h200
    have hu : negotiateEncoding (lookup h fs urlPath) (some r) = false := by
      by_cases hu2 : negotiateEncoding (lookup h fs urlPath) (some r) = true
      · cases hcomp : (lookup h fs urlPath).compressed with
        | none => exact negotiateEncoding_none _ _ hcomp
        | some enc =>
          rw [hCE, if_pos hu2, hcomp] at hnone
          exact absurd hnone (by simp)
      · exact Bool.eq_false_iff.mpr hu2
    rw [hbp, hx200 (by rw [← hst]; exact h200)]
    unfold servePath
    rw [hu]
    simp
  · intro e he h200
    have hu : negotiateEncoding (lookup h fs urlPath) (some r) = true := by
      by_cases hu2 : negotiateEncoding (lookup h fs urlPath) (some r) = true
      · exact hu2
      · rw [hCE, if_neg hu2] at he
        exact absurd he (by simp)
    rw [hbp, hx200 (by rw [← hst]; exact h200)]
    unfold servePath
    rw [hu]
    simp

theorem serveImsCheck_304 (h : StaticHandler) (result : StaticFileResult)
    (r : StaticRequest) (st : Nat × Int) (t : Int) (hle : st.2 ≤ t) :
    serveImsCheck h result r st (some t)
      = (304, serveHeaders h result (negotiateEncoding result (some r)),
          none) := by
  have heq : serveImsCheck h result r st (some t)
      = if st.2 ≤ t then
          (304, serveHeaders h result (negotiateEncoding result (some r)),
            none)
        else
          (200, serveHeaders h result (negotiateEncoding result (some r)),
            some (servePath result (some r))) := rfl
  rw [heq, if_pos hle]

/-- C7: when the request's If-None-Match equals the ETag the handler
computes for the file, or its If-Modified-Since timestamp is not older
than the file's modification time, serve answers 304 with a null body. -/
theorem serve_conditional_not_modified (h : StaticHandler) (fs : FileSystem)
    (urlPath : String) (r : StaticRequest) (sz : Nat) (mt : Int)
    (hfound : (lookup h fs urlPath).found = true)
    (hstats : (lookup h fs urlPath).stats = some (sz, mt))
    (hcond : r.ifNoneMatch = some (computeEtag sz mt) ∨
      ∃ t, r.ifModifiedSince = some (some t) ∧ mt ≤ t) :
    ∃ hs, serve h fs urlPath (some r)
      = some { status := 304, headers := hs, bodyPath := none,
               body := none } := by
  have hcore : ∃ hs, serveCore h (lookup h fs urlPath) (some r)
      = some (304, hs, none) := by
    rw [serveCore_eq_conditional h _ r (sz, mt) hfound hstats]
    by_cases hinm : (r.ifNoneMatch == some (computeEtag sz mt)) = true
    · rw [serveConditional_eq_inm h _ r (sz, mt) hinm]
      exact ⟨_, rfl⟩
    · rcases hcond with hc1 | ⟨t, hims, hle⟩
      · exact absurd (by rw [hc1]; simp) hinm
      · rw [serveConditional_eq_ims h _ r (sz, mt) (some t) hinm hims]
        rw [serveImsCheck_304 h _ r (sz, mt) t hle]
        exact ⟨_, rfl⟩
  obtain ⟨hs, hsc⟩ := hcore
  refine ⟨hs, ?_⟩
  unfold serve
  rw [hsc]
  rfl

/-- lookup consults only existence, directory bits, sizes and times of
the filesystem, never contents. -/
theorem lookup_congr (h : StaticHandler) (fs1 fs2 : FileSystem)
    (urlPath : String)
    (hex : ∀ p, fs1.existsSync p = fs2.existsSync p)
    (hdir : ∀ p, fs1.isDirectory p = fs2.isDirectory p)
    (hsz : ∀ p, fs1.fileSize p = fs2.fileSize p)
    (hmt : ∀ p, fs1.fileMtimeMs p = fs2.fileMtimeMs p) :
    lookup h fs1 urlPath = lookup h fs2 urlPath := by
  have hbase : lookupBase h fs1 urlPath = lookupBase h fs2 urlPath := by
    unfold lookupBase
    simp only [hex, hdir]
  unfold lookup
  rw [hbase]
  cases lookupBase h fs2 urlPath with
  | none => rfl
  | some base =>
    show lookupWithBase h fs1 base = lookupWithBase h fs2 base
    unfold lookupWithBase
    simp only [hex, hdir, hsz, hmt]

theorem serve_etag_some (h : StaticHandler) (fs : FileSystem)
    (urlPath : String) (r : StaticRequest) (resp : StaticResponse)
    (st : Nat × Int)
    (hresp : serve h fs urlPath (some r) = some resp)
    (hstats : (lookup h fs urlPath).stats = some st) :
    getHeader resp.headers "ETag" = some (computeEtag st.1 st.2) := by
  obtain ⟨x, hx, _, hhd, _, _⟩ := serve_some_inv h fs urlPath (some r) resp hresp
  obtain ⟨hxh, _, _, _⟩ := serveCore_some_spec h _ (some r) x hx
  rw [hhd, hxh]
  exact serveHeaders_etag h _ _ st hstats

/-- C10: the ETag of a static response is a function of the file's size
and modification time only.  For any two filesystem states that agree on
existence, directory bits, sizes and times, the served ETags agree even
when the file contents differ; consequently a request replaying the first
ETag against the changed contents receives 304 and no body. -/
theorem etag_ignores_content (h : StaticHandler) (fs1 fs2 : FileSystem)
    (urlPath : String) (req : Option StaticRequest)
    (hex : ∀ p, fs1.existsSync p = fs2.existsSync p)
    (hdir : ∀ p, fs1.isDirectory p = fs2.isDirectory p)
    (hsz : ∀ p, fs1.fileSize p = fs2.fileSize p)
    (hmt : ∀ p, fs1.fileMtimeMs p = fs2.fileMtimeMs p) :
    ((serve h fs1 urlPath req).map
        (fun resp => getHeader resp.headers "ETag"))
      = ((serve h fs2 urlPath req).map
        (fun resp => getHeader resp.headers "ETag")) ∧
    (∀ r resp e, serve h fs1 urlPath (some r) = some resp →
      getHeader resp.headers "ETag" = some e →
      ∃ hs, serve h fs2 urlPath
          (some { r with ifNoneMatch := some e })
        = some { status := 304, headers := hs, bodyPath := none,
                 body := none }) := by
  have hlk : lookup h fs1 urlPath = lookup h fs2 urlPath :=
    lookup_congr h fs1 fs2 urlPath hex hdir hsz hmt
  constructor
  · unfold serve
    rw [hlk]
    cases serveCore h (lookup h fs2 urlPath) req with
    | none => rfl
    | some x => rfl
  · intro r resp e hresp hetag
    obtain ⟨x, hx, _, _, _, _⟩ :=
      serve_some_inv h fs1 urlPath (some r) resp hresp
    have hfound := serveCore_some_found h _ (some r) x hx
    obtain ⟨st, hstats⟩ := lookup_found_stats h fs1 urlPath hfound
    have hetag2 := serve_etag_some h fs1 urlPath r resp st hresp hstats
    have he : e = computeEtag st.1 st.2 := by
      rw [hetag] at hetag2
      exact Option.some.inj hetag2
    have hfound2 : (lookup h fs2 urlPath).found = true := by
      rw [← hlk]; exact hfound
    have hstats2 : (lookup h fs2 urlPath).stats = some st := by
      rw [← hlk]; exact hstats
    have hcore := serveCore_eq_conditional h (lookup h fs2 urlPath)
      { r with ifNoneMatch := some e } st hfound2 hstats2
    have hcond := serveConditional_eq_inm h (lookup h fs2 urlPath)
      { r with ifNoneMatch := some e } st (by subst he; simp)
    refine ⟨serveHeaders h (lookup h fs2 urlPath)
      (negotiateEncoding (lookup h fs2 urlPath)
        (some { r with ifNoneMatch := some e })), ?_⟩
    unfold serve
    rw [hcore, hcond]
    rfl

/-! ### Closed witnesses for the serve theorems -/

def negoHandler : StaticHandler :=
  ⟨["www"], "index.html", true, fun _ => none, fun _ => "cc", [],
    fun _ => false⟩

def negoFs : FileSystem :=
  ⟨fun p => p == ["www", "app.js"] || p == ["www", "app.js.br"]
      || p == ["www", "app.js.gz"],
    fun _ => false, fun _ => 10, fun _ => 99, fun _ => "X"⟩

def negoReq : StaticRequest := ⟨some "gzip, br", none, none⟩

def negoResp : StaticResponse :=
  ⟨200,
    [("Content-Type", "application/octet-stream"), ("Cache-Control", "cc"),
      ("Content-Encoding", "br"), ("Last-Modified", "@99"),
      ("ETag", "\"10-99\"")],
    some ["www", "app.js.br"], some "X"⟩

/-- Closed witness for C6: both siblings on disk, client accepts both,
the .br variant is selected and announced. -/
theorem serve_compression_negotiation_witness :
    (∀ kv ∈ negoHandler.headers, kv.1 ≠ "Content-Encoding") ∧
    serve negoHandler negoFs "/app.js" (some negoReq) = some negoResp ∧
    ((getHeader negoResp.headers "Content-Encoding" = some "br" ↔
      ((lookup negoHandler negoFs "/app.js").compressed = some Encoding.br ∧
        containsSubstr (negoReq.acceptEncoding.getD "") "br" = true)) ∧
    (getHeader negoResp.headers "Content-Encoding" = some "gzip" ↔
      ((lookup negoHandler negoFs "/app.js").compressed
          = some Encoding.gzip ∧
        containsSubstr (negoReq.acceptEncoding.getD "") "gzip" = true)) ∧
    (∀ enc, (lookup negoHandler negoFs "/app.js").compressed = some enc →
      ∃ base, lookupBase negoHandler negoFs "/app.js" = some base ∧
        (lookup negoHandler negoFs "/app.js").filePath
          = addSuffix base (if enc = Encoding.br then ".br" else ".gz") ∧
        negoFs.existsSync
          ((lookup negoHandler negoFs "/app.js").filePath) = true) ∧
    (∀ base, lookupBase negoHandler negoFs "/app.js" = some base →
      negoHandler.compression = true →
      negoFs.existsSync (addSuffix base ".br") = true →
      (lookup negoHandler negoFs "/app.js").compressed
        = some Encoding.br) ∧
    (getHeader negoResp.headers "Content-Encoding" = none →
      negoResp.status = 200 →
      negoResp.bodyPath = some (stripCompressionSuffix
        (lookup negoHandler negoFs "/app.js").filePath)) ∧
    (∀ e, getHeader negoResp.headers "Content-Encoding" = some e →
      negoResp.status = 200 →
      negoResp.bodyPath
        = some ((lookup negoHandler negoFs "/app.js").filePath))) :=
  ⟨fun kv hkv => absurd hkv (by simp [negoHandler]),
    rfl,
    serve_compression_negotiation negoHandler negoFs "/app.js" negoReq
      negoResp (fun kv hkv => absurd hkv (by simp [negoHandler])) rfl⟩

def condHandler : StaticHandler :=
  ⟨["www"], "index.html", false, fun _ => none, fun _ => "cc", [],
    fun _ => false⟩

def condFs : FileSystem :=
  ⟨fun p => p == ["www", "x.txt"], fun _ => false, fun _ => 7,
    fun _ => 50, fun _ => "hello"⟩

def condReq : StaticRequest := ⟨none, some "\"7-50\"", none⟩

/-- Closed witness for C7: replaying the computed ETag yields 304 with a
null body. -/
theorem serve_conditional_not_modified_witness :
    (lookup condHandler condFs "/x.txt").found = true ∧
    (lookup condHandler condFs "/x.txt").stats = some (7, 50) ∧
    (condReq.ifNoneMatch = some (computeEtag 7 50) ∨
      ∃ t, condReq.ifModifiedSince = some (some t) ∧ (50 : Int) ≤ t) ∧
    (∃ hs, serve condHandler condFs "/x.txt" (some condReq)
      = some { status := 304, headers := hs, bodyPath := none,
               body := none }) :=
  ⟨by decide, by decide, Or.inl (by decide),
    serve_conditional_not_modified condHandler condFs "/x.txt" condReq 7 50
      (by decide) (by decide) (Or.inl (by decide))⟩

def metaFsOld : FileSystem :=
  ⟨fun p => p == ["www", "x.txt"], fun _ => false, fun _ => 7,
    fun _ => 50, fun _ => "old contents"⟩

def metaFsNew : FileSystem :=
  ⟨fun p => p == ["www", "x.txt"], fun _ => false, fun _ => 7,
    fun _ => 50, fun _ => "NEW CONTENTS"⟩

/-- Closed witness for C10: two filesystem states with identical metadata
but different contents serve equal ETags, and replaying the first ETag
against the changed contents yields 304. -/
theorem etag_ignores_content_witness :
    (∀ p, metaFsOld.existsSync p = metaFsNew.existsSync p) ∧
    (((serve condHandler metaFsOld "/x.txt" (some ⟨none, none, none⟩)).map
        (fun resp => getHeader resp.headers "ETag"))
      = ((serve condHandler metaFsNew "/x.txt" (some ⟨none, none, none⟩)).map
        (fun resp => getHeader resp.headers "ETag")) ∧
    (∀ r resp e,
      serve condHandler metaFsOld "/x.txt" (some r) = some resp →
      getHeader resp.headers "ETag" = some e →
      ∃ hs, serve condHandler metaFsNew "/x.txt"
          (some { r with ifNoneMatch := some e })
        = some { status := 304, headers := hs, bodyPath := none,
                 body := none })) :=
  ⟨fun _ => rfl,
    etag_ignores_content condHandler metaFsOld metaFsNew "/x.txt"
      (some ⟨none, none, none⟩) (fun _ => rfl) (fun _ => rfl)
      (fun _ => rfl) (fun _ => rfl)⟩

/-- Closed witness for the amended C2 on the escape configuration: the
lookup is within the stated dichotomy (here the sibling disjunct). -/
theorem static_lookup_root_containment_witness :
    (lookup escapeHandler escapeFs "/..").found = true ∧
    ((∃ t, (lookup escapeHandler escapeFs "/..").filePath
        = escapeHandler.root ++ t) ∨
      (resolveFilePath escapeHandler.root "/.." = escapeHandler.root ∧
        ((lookup escapeHandler escapeFs "/..").filePath
            = addSuffix escapeHandler.root ".br" ∨
         (lookup escapeHandler escapeFs "/..").filePath
            = addSuffix escapeHandler.root ".gz"))) :=
  ⟨by decide,
    static_lookup_root_containment escapeHandler escapeFs "/.." (by decide)⟩

end Static

/-! ## Render engine, from src/server/engine.ts

The external collaborators are passed in as functions: renderApplication
(the opaque Angular render, returning markup or throwing) and parseUrl
(the WHATWG URL parser against the localhost base, returning pathname and
search).  Date.now() is the `now` argument; performance.now() durations
are abstracted to 0. -/

namespace Engine

structure CacheEntry where
  html : String
  status : Nat
  headers : List (String × String)
  timestamp : Int
  expiresAt : Int
deriving DecidableEq

structure RenderResult where
  html : String
  status : Nat
  headers : List (String × String)
  fromCache : Bool
  renderTime : Nat
deriving DecidableEq

structure RenderOptions where
  url : String
  skipCache : Bool
  document : Option String

/-- The engine state after construction: the cache (none when disabled),
the TTL, the loaded index.html content (none when the file is missing),
and whether NODE_ENV is production (used by the error page). -/
structure BunAngularEngine where
  cache : Option (LRUCache CacheEntry)
  cacheTtl : Int
  indexHtmlContent : Option String
  nodeEnvProduction : Bool

/-- JS truthiness of an optional string: absent or empty is falsy. -/
def jsString (s : Option String) : Option String :=
  match s with
  | some d => if d = "" then none else some d
  | none => none

/-- getDocument: the custom document when truthy, else the loaded
index.html; none models the thrown could-not-find error (caught by the
try block of render). -/
def getDocument (eng : BunAngularEngine) (customDocument : Option String) :
    Option String :=
  match jsString customDocument with
  | some d => some d
  | none => jsString eng.indexHtmlContent

/-- getCacheKey: pathname + search of the parsed URL. -/
def getCacheKey (parseUrl : String → String × String) (url : String) :
    String :=
  (parseUrl url).1 ++ (parseUrl url).2

/-- isCacheValid: Date.now() strictly before expiresAt. -/
def isCacheValid (now : Int) (entry : CacheEntry) : Bool :=
  now < entry.expiresAt

/-- The 500 error page; the message is embedded only outside production. -/
def renderErrorPage (isProduction : Bool) (message : String) : String :=
  "<!DOCTYPE html>
<html lang=\"en\">
<head>
  <meta charset=\"UTF-8\">
  <meta name=\"viewport\" content=\"width=device-width, initial-scale=1.0\">
  <title>Server Error</title>
  <style>
    body \x7b
      font-family: system-ui, -apple-system, sans-serif;
      display: flex;
      justify-content: center;
      align-items: center;
      min-height: 100vh;
      margin: 0;
      background: #0f0f0f;
      color: #fff;
    \x7d
    .error-container \x7b
      text-align: center;
      padding: 2rem;
      max-width: 600px;
    \x7d
    h1 \x7b
      font-size: 4rem;
      margin: 0;
      background: linear-gradient(135deg, #ff6b6b, #feca57);
      -webkit-background-clip: text;
      -webkit-text-fill-color: transparent;
      background-clip: text;
    \x7d
    p \x7b
      color: #888;
      margin-top: 1rem;
    \x7d
    code \x7b
      display: block;
      margin-top: 1rem;
      padding: 1rem;
      background: #1a1a1a;
      border-radius: 8px;
      font-size: 0.875rem;
      color: #ff6b6b;
      word-break: break-word;
    \x7d
  </style>
</head>
<body>
  <div class=\"error-container\">
    <h1>500</h1>
    <p>An error occurred while rendering this page.</p>
    "
  ++ (if !isProduction then "<code>" ++ message ++ "</code>" else "") ++ "
  </div>
</body>
</html>"

/-- The catch branch of render: a 500 result with the error page. -/
def errorResult (eng : BunAngularEngine) (message : String) : RenderResult :=
  { html := renderErrorPage eng.nodeEnvProduction message, status := 500,
    headers := [("Content-Type", "text/html; charset=utf-8")],
    fromCache := false, renderTime := 0 }

/-- The cache check at the top of render: when not skipped and a cache is
configured, a single LRU get (which repositions the entry even when it
then turns out stale). -/
def cacheLookupStep (eng : BunAngularEngine) (skipCache : Bool)
    (cacheKey : String) : Option CacheEntry × BunAngularEngine :=
  if !skipCache then
    match eng.cache with
    | some c =>
      ((LRUCache.get c cacheKey).1,
        { eng with cache := some (LRUCache.get c cacheKey).2 })
    | none => (none, eng)
  else (none, eng)

/-- The successful render result: status 200 with the fixed headers. -/
def freshResult (html : String) : RenderResult :=
  { html := html, status := 200,
    headers := [("Content-Type", "text/html; charset=utf-8"),
      ("X-Rendered-By", "bun-angular-ssr")],
    fromCache := false, renderTime := 0 }

/-- The cache entry stored after a successful render. -/
def freshEntry (now ttl : Int) (result : RenderResult) : CacheEntry :=
  { html := result.html, status := result.status, headers := result.headers,
    timestamp := now, expiresAt := now + ttl }

/-- The cache population after a successful render (skipped when
skipCache is set or no cache is configured). -/
def populateCache (eng : BunAngularEngine) (skipCache : Bool)
    (cacheKey : String) (now : Int) (result : RenderResult) :
    BunAngularEngine :=
  if !skipCache then
    match eng.cache with
    | some c =>
      { eng with cache := some (LRUCache.set c cacheKey
          (freshEntry now eng.cacheTtl result)) }
    | none => eng
  else eng

/-- The try block of render: getDocument may throw (none), then the
external render runs; any failure lands in the catch branch, which
returns the 500 result and performs no cache write. -/
def tryRender (eng : BunAngularEngine)
    (renderApplication : String → Except String String)
    (parseUrl : String → String × String) (now : Int)
    (opts : RenderOptions) (cacheKey : String) :
    RenderResult × BunAngularEngine :=
  match getDocument eng opts.document with
  | none => (errorResult eng "Could not find index.html", eng)
  | some _ =>
    match renderApplication
        ((parseUrl opts.url).1 ++ (parseUrl opts.url).2) with
    | Except.error msg => (errorResult eng msg, eng)
    | Except.ok html =>
      (freshResult html,
        populateCache eng opts.skipCache cacheKey now (freshResult html))

/-- BunAngularEngine.render. -/
def render (eng : BunAngularEngine)
    (renderApplication : String → Except String String)
    (parseUrl : String → String × String) (now : Int)
    (opts : RenderOptions) : RenderResult × BunAngularEngine :=
  match (cacheLookupStep eng opts.skipCache
      (getCacheKey parseUrl opts.url)).1 with
  | some entry =>
    if isCacheValid now entry then
      ({ html := entry.html, status := entry.status,
         headers := entry.headers, fromCache := true, renderTime := 0 },
        (cacheLookupStep eng opts.skipCache
          (getCacheKey parseUrl opts.url)).2)
    else
      tryRender (cacheLookupStep eng opts.skipCache
          (getCacheKey parseUrl opts.url)).2
        renderApplication parseUrl now opts (getCacheKey parseUrl opts.url)
  | none =>
    tryRender (cacheLookupStep eng opts.skipCache
        (getCacheKey parseUrl opts.url)).2
      renderApplication parseUrl now opts (getCacheKey parseUrl opts.url)

/-- engine.cache?.has(key). -/
def engineHas (eng : BunAngularEngine) (k : String) : Bool :=
  match eng.cache with
  | some c => c.has k
  | none => false

def engineEntries (eng : BunAngularEngine) : List (Key × CacheEntry) :=
  match eng.cache with
  | some c => c.entries
  | none => []

def engineCacheNodup (eng : BunAngularEngine) : Prop :=
  ((engineEntries eng).map Prod.fst).Nodup

end Engine

/-! ### LRU get is a permutation (the reposition adds and removes nothing) -/

theorem mapDelete_perm {T : Type} (m : List (Key × T)) (e : Key × T)
    (hnd : (m.map Prod.fst).Nodup) (hmem : e ∈ m) :
    (LRUCache.mapDelete m e.1 ++ [e]).Perm m := by
  obtain ⟨l1, l2, rfl⟩ := List.append_of_mem hmem
  have hky := hnd
  rw [List.map_append, List.map_cons, List.nodup_append] at hky
  obtain ⟨h1, h2, hdisj⟩ := hky
  rw [List.nodup_cons] at h2
  have hnl1 : ¬ e.1 ∈ l1.map Prod.fst :=
    fun hx => hdisj hx (List.mem_cons_self _ _)
  have hnl2 : ¬ e.1 ∈ l2.map Prod.fst := h2.1
  have ha1 : l1.any (fun x => x.1 == e.1) = false := by
    rw [List.any_eq_false]
    intro x hx
    simp only [beq_iff_eq]
    intro hxe
    exact hnl1 (hxe ▸ List.mem_map_of_mem Prod.fst hx)
  have ha2 : l2.any (fun x => x.1 == e.1) = false := by
    rw [List.any_eq_false]
    intro x hx
    simp only [beq_iff_eq]
    intro hxe
    exact hnl2 (hxe ▸ List.mem_map_of_mem Prod.fst hx)
  have hd1 := mapDelete_eq_self_of_not_mem l1 e.1 ha1
  have hd2 := mapDelete_eq_self_of_not_mem l2 e.1 ha2
  have hdel : LRUCache.mapDelete (l1 ++ e :: l2) e.1 = l1 ++ l2 := by
    unfold LRUCache.mapDelete at hd1 hd2 ⊢
    rw [List.filter_append, hd1, List.filter_cons]
    simp [hd2]
  rw [hdel]
  exact (List.perm_append_singleton e (l1 ++ l2)).trans List.perm_middle.symm

theorem get_entries_perm {T : Type} (c : LRUCache T) (k : Key)
    (hnd : (c.entries.map Prod.fst).Nodup) :
    ((LRUCache.get c k).2).entries.Perm c.entries := by
  unfold LRUCache.get
  cases hf : c.entries.find? (fun e => e.1 == k) with
  | none => exact List.Perm.refl _
  | some e =>
    have hk : e.1 = k := by simpa using List.find?_some hf
    have hmem : e ∈ c.entries := List.mem_of_find?_eq_some hf
    show (LRUCache.mapDelete c.entries k ++ [(k, e.2)]).Perm c.entries
    rw [← hk]
    exact mapDelete_perm c.entries e hnd hmem

theorem get_found_has {T : Type} (c : LRUCache T) (k : Key) (entry : T)
    (hf : (LRUCache.get c k).1 = some entry) :
    ((LRUCache.get c k).2).has k = true := by
  unfold LRUCache.get at hf ⊢
  cases hff : c.entries.find? (fun e => e.1 == k) with
  | none =>
    rw [hff] at hf
    exact absurd hf (by simp)
  | some e =>
    show LRUCache.has
      ⟨LRUCache.mapDelete c.entries k ++ [(k, e.2)], c.maxSize⟩ k = true
    unfold LRUCache.has
    simp [List.any_append]

theorem set_has_self {T : Type} (c : LRUCache T) (k : Key) (v : T) :
    (LRUCache.set c k v).has k = true := by
  unfold LRUCache.set LRUCache.has
  by_cases hp : c.entries.any (fun e => e.1 == k) = true
  · rw [if_pos hp]
    simp [List.any_append]
  · rw [if_neg hp]
    simp [List.any_append]

namespace Engine

/-- The cache check keeps every engine field except the cache order, and
the cache contents up to permutation. -/
theorem cacheLookupStep_spec (eng : BunAngularEngine) (s : Bool)
    (k : String) (hnodup : engineCacheNodup eng) :
    (cacheLookupStep eng s k).2.indexHtmlContent = eng.indexHtmlContent ∧
    (cacheLookupStep eng s k).2.nodeEnvProduction = eng.nodeEnvProduction ∧
    (cacheLookupStep eng s k).2.cacheTtl = eng.cacheTtl ∧
    (engineEntries (cacheLookupStep eng s k).2).Perm (engineEntries eng) := by
  unfold cacheLookupStep
  by_cases hs : (!s) = true
  · rw [if_pos hs]
    cases hc : eng.cache with
    | none => exact ⟨rfl, rfl, rfl, List.Perm.refl _⟩
    | some c =>
      refine ⟨rfl, rfl, rfl, ?_⟩
      show ((LRUCache.get c k).2).entries.Perm (engineEntries eng)
      have hnd : (c.entries.map Prod.fst).Nodup := by
        unfold engineCacheNodup engineEntries at hnodup
        rw [hc] at hnodup
        exact hnodup
      have hperm := get_entries_perm c k hnd
      unfold engineEntries
      rw [hc]
      exact hperm
  · rw [if_neg hs]
    exact ⟨rfl, rfl, rfl, List.Perm.refl _⟩

/-- getDocument depends only on the loaded index content. -/
theorem getDocument_congr (eng eng2 : BunAngularEngine)
    (cd : Option String)
    (hidx : eng2.indexHtmlContent = eng.indexHtmlContent) :
    getDocument eng2 cd = getDocument eng cd := by
  unfold getDocument
  rw [hidx]

/-- C3: when the external render operation fails (and the cache did not
serve a valid hit), render still returns a result: status 500, the error
page as body, not from the cache; and no entry is added to the cache in
that branch, whose contents are unchanged up to the recency reordering of
the preceding lookup. -/
theorem render_failure_500_no_cache_write (eng : BunAngularEngine)
    (renderApplication : String → Except String String)
    (parseUrl : String → String × String) (now : Int)
    (opts : RenderOptions) (msg : String)
    (hnodup : engineCacheNodup eng)
    (hdoc : getDocument eng opts.document ≠ none)
    (hfail : renderApplication
      ((parseUrl opts.url).1 ++ (parseUrl opts.url).2) = Except.error msg)
    (hmiss : ∀ entry,
      (cacheLookupStep eng opts.skipCache
        (getCacheKey parseUrl opts.url)).1 = some entry →
      isCacheValid now entry = false) :
    (render eng renderApplication parseUrl now opts).1.status = 500 ∧
    (render eng renderApplication parseUrl now opts).1.html
      = renderErrorPage eng.nodeEnvProduction msg ∧
    (render eng renderApplication parseUrl now opts).1.fromCache = false ∧
    (engineEntries (render eng renderApplication parseUrl now opts).2).Perm
      (engineEntries eng) := by
  obtain ⟨hidx, hprod, _, hperm⟩ := cacheLookupStep_spec eng opts.skipCache
    (getCacheKey parseUrl opts.url) hnodup
  have htr : tryRender (cacheLookupStep eng opts.skipCache
        (getCacheKey parseUrl opts.url)).2
      renderApplication parseUrl now opts (getCacheKey parseUrl opts.url)
      = (errorResult (cacheLookupStep eng opts.skipCache
          (getCacheKey parseUrl opts.url)).2 msg,
        (cacheLookupStep eng opts.skipCache
          (getCacheKey parseUrl opts.url)).2) := by
    unfold tryRender
    rw [getDocument_congr eng _ opts.document hidx]
    cases hd : getDocument eng opts.document with
    | none => exact absurd hd hdoc
    | some d => rw [hfail]
  have hrender : render eng renderApplication parseUrl now opts
      = (errorResult (cacheLookupStep eng opts.skipCache
          (getCacheKey parseUrl opts.url)).2 msg,
        (cacheLookupStep eng opts.skipCache
          (getCacheKey parseUrl opts.url)).2) := by
    unfold render
    cases hstep : (cacheLookupStep eng opts.skipCache
        (getCacheKey parseUrl opts.url)).1 with
    | none => exact htr
    | some entry =>
      show (if isCacheValid now entry = true then _ else _) = _
      rw [hmiss entry hstep]
      simp only [Bool.false_eq_true, if_false]
      exact htr
  rw [hrender]
  refine ⟨rfl, ?_, rfl, hperm⟩
  show renderErrorPage (cacheLookupStep eng opts.skipCache
      (getCacheKey parseUrl opts.url)).2.nodeEnvProduction msg
    = renderErrorPage eng.nodeEnvProduction msg
  rw [hprod]

/-- C4: a stale cache entry (expiresAt not in the future) is never
served: with caching enabled and skipCache false, render performs a fresh
render and returns fromCache false (on success with the freshly rendered
markup and status 200), even though has on the underlying cache still
reports the key as present afterwards. -/
theorem expired_entry_not_served (eng : BunAngularEngine)
    (c : LRUCache CacheEntry)
    (renderApplication : String → Except String String)
    (parseUrl : String → String × String) (now : Int)
    (opts : RenderOptions) (entry : CacheEntry)
    (hc : eng.cache = some c)
    (hskip : opts.skipCache = false)
    (hget : (LRUCache.get c (getCacheKey parseUrl opts.url)).1 = some entry)
    (hexp : entry.expiresAt ≤ now) :
    (render eng renderApplication parseUrl now opts).1.fromCache = false ∧
    (∀ html, renderApplication
        ((parseUrl opts.url).1 ++ (parseUrl opts.url).2) = Except.ok html →
      getDocument eng opts.document ≠ none →
      (render eng renderApplication parseUrl now opts).1.html = html ∧
      (render eng renderApplication parseUrl now opts).1.status = 200) ∧
    engineHas (render eng renderApplication parseUrl now opts).2
      (getCacheKey parseUrl opts.url) = true := by
  have hvalid : isCacheValid now entry = false := by
    unfold isCacheValid
    simp only [decide_eq_false_iff_not]
    omega
  set ck : String := getCacheKey parseUrl opts.url with hck
  set eng2 : BunAngularEngine := { eng with cache := some (LRUCache.get c ck).2 } with heng2
  have hstep : cacheLookupStep eng opts.skipCache ck
      = ((LRUCache.get c ck).1, eng2) := by
    unfold cacheLookupStep
    rw [hskip, hc]
    rfl
  have hrender : render eng renderApplication parseUrl now opts
      = tryRender eng2 renderApplication parseUrl now opts ck := by
    unfold render
    rw [← hck, hstep]
    show (match (LRUCache.get c ck).1 with
      | some e => _ | none => _) = _
    rw [hget]
    show (if isCacheValid now entry = true then _ else _) = _
    rw [hvalid]
    simp
  rw [hrender]
  have hhas2 : engineHas eng2 ck = true := by
    unfold engineHas
    rw [heng2]
    exact get_found_has c _ entry hget
  unfold tryRender
  cases hd : getDocument eng2 opts.document with
  | none =>
    refine ⟨rfl, ?_, hhas2⟩
    intro html _ hdoc
    rw [getDocument_congr eng eng2 opts.document rfl] at hd
    exact absurd hd hdoc
  | some d =>
    cases hra : renderApplication
        ((parseUrl opts.url).1 ++ (parseUrl opts.url).2) with
    | error m =>
      refine ⟨rfl, ?_, hhas2⟩
      intro html hok _
      exact Except.noConfusion hok
    | ok html =>
      refine ⟨rfl, ?_, ?_⟩
      · intro html2 hok _
        have h12 := Except.ok.inj hok
        subst h12
        exact ⟨rfl, rfl⟩
      · unfold populateCache
        rw [hskip]
        show engineHas (match eng2.cache with
          | some c2 => { eng2 with cache := some (LRUCache.set c2
              (getCacheKey parseUrl opts.url)
              (freshEntry now eng2.cacheTtl (freshResult html))) }
          | none => eng2) (getCacheKey parseUrl opts.url) = true
        rw [show eng2.cache = some (LRUCache.get c
            (getCacheKey parseUrl opts.url)).2 from rfl]
        unfold engineHas
        exact set_has_self _ _ _

/-! ### Closed witnesses for the engine theorems -/

def failEngine : BunAngularEngine :=
  ⟨some (LRUCache.empty 100), 300000, some "<html><body></body></html>",
    false⟩

def failParse : String → String × String := fun _ => ("/page", "")

def failRender : String → Except String String :=
  fun _ => Except.error "boom"

def failOpts : RenderOptions := ⟨"/page", false, none⟩

/-- Closed witness for C3: a failing render yields the 500 error result
and leaves the cache contents unchanged. -/
theorem render_failure_500_no_cache_write_witness :
    engineCacheNodup failEngine ∧
    getDocument failEngine failOpts.document ≠ none ∧
    failRender ((failParse failOpts.url).1 ++ (failParse failOpts.url).2)
      = Except.error "boom" ∧
    ((render failEngine failRender failParse 1000 failOpts).1.status
        = 500 ∧
      (render failEngine failRender failParse 1000 failOpts).1.html
        = renderErrorPage failEngine.nodeEnvProduction "boom" ∧
      (render failEngine failRender failParse 1000 failOpts).1.fromCache
        = false ∧
      (engineEntries
          (render failEngine failRender failParse 1000 failOpts).2).Perm
        (engineEntries failEngine)) :=
  ⟨by unfold engineCacheNodup
      rw [show engineEntries failEngine = [] from rfl]
      exact List.nodup_nil,
    by decide, rfl,
    render_failure_500_no_cache_write failEngine failRender failParse 1000
      failOpts "boom"
      (by unfold engineCacheNodup
          rw [show engineEntries failEngine = [] from rfl]
          exact List.nodup_nil)
      (by decide) rfl
      (fun entry hent => by
        rw [show (cacheLookupStep failEngine failOpts.skipCache
            (getCacheKey failParse failOpts.url)).1 = none from rfl] at hent
        exact Option.noConfusion hent)⟩

def staleEntry : CacheEntry := ⟨"<old>", 200, [], 0, 10⟩

def staleCache : LRUCache CacheEntry := ⟨[("/page", staleEntry)], 100⟩

def staleEngine : BunAngularEngine :=
  ⟨some staleCache, 300000, some "<html><body></body></html>", false⟩

def staleParse : String → String × String := fun _ => ("/page", "")

def staleOpts : RenderOptions := ⟨"/page", false, none⟩

/-- Closed witness for C4: an entry expired at time 10 is not served at
time 50; the fresh markup is returned and the key is still present. -/
theorem expired_entry_not_served_witness :
    staleEngine.cache = some staleCache ∧
    staleOpts.skipCache = false ∧
    (LRUCache.get staleCache
        (getCacheKey staleParse staleOpts.url)).1 = some staleEntry ∧
    staleEntry.expiresAt ≤ (50 : Int) ∧
    ((render staleEngine (fun _ => Except.ok "<fresh>") staleParse 50
        staleOpts).1.fromCache = false ∧
      (∀ html, (fun _ => Except.ok (ε := String) "<fresh>")
          ((staleParse staleOpts.url).1 ++ (staleParse staleOpts.url).2)
          = Except.ok html →
        getDocument staleEngine staleOpts.document ≠ none →
        (render staleEngine (fun _ => Except.ok "<fresh>") staleParse 50
          staleOpts).1.html = html ∧
        (render staleEngine (fun _ => Except.ok "<fresh>") staleParse 50
          staleOpts).1.status = 200) ∧
      engineHas (render staleEngine (fun _ => Except.ok "<fresh>")
          staleParse 50 staleOpts).2
        (getCacheKey staleParse staleOpts.url) = true) :=
  ⟨rfl, rfl, rfl, by decide,
    expired_entry_not_served staleEngine staleCache
      (fun _ => Except.ok "<fresh>") staleParse 50 staleOpts staleEntry rfl
      rfl rfl (by decide)⟩

end Engine

/-! ## Batch prerender orchestrator, from src/prerender/prerender.ts

The engine collaborator is the function engineRender (path to render
result: status and markup, or a thrown error — which per the engine
contract does not happen, but the try/catch also covers filesystem write
failures, modelled the same way).  File writes are collected in order.
Tasks of one concurrency chunk are modelled in order; the Promise.all
interleaving can only permute the per-task record pushes, which no claim
depends on.  The outer Option is none when the chunking loop diverges. -/

namespace Prerender

/-- Collapse runs of slashes (replace of the slash-run regex); the flag
records whether the previous kept character was a slash. -/
def csGo : Bool → List Char → List Char
  | _, [] => []
  | prevSlash, c :: rest =>
    if c = '/' then
      if prevSlash then csGo true rest
      else '/' :: csGo true rest
    else c :: csGo false rest

def collapseSlashes (l : List Char) : List Char := csGo false l

def strStartsWith (s pre : String) : Bool := pre.data.isPrefixOf s.data

/-- normalizePath: ensure a leading slash, collapse slash runs. -/
def normalizePath (path : String) : String :=
  let p := if strStartsWith path "/" then path else "/" ++ path
  String.mk (collapseSlashes p.data)

/-- replace(trailing slash regex, empty): drop one trailing slash. -/
def stripTrailingSlash (s : String) : String :=
  if Static.strEndsWith s "/" then Static.strDropRight s 1 else s

/-- pathToOutputFile: the route path mapped to its output file. -/
def pathToOutputFile (path : String) : String :=
  let normalized := normalizePath path
  if normalized = "/" then "/index.html"
  else (stripTrailingSlash normalized) ++ "/index.html"

def findSubstrIdx (s pat : List Char) : Option Nat :=
  (List.range (s.length + 1)).find? (fun i => pat.isPrefixOf (s.drop i))

/-- JS String.prototype.replace with a string pattern: first occurrence
only. -/
def replaceFirst (s pat rep : String) : String :=
  match findSubstrIdx s.data pat.data with
  | none => s
  | some i =>
    String.mk (s.data.take i ++ rep.data
      ++ s.data.drop (i + pat.data.length))

def replaceAllGo (pat rep : List Char) : Nat → List Char → List Char
  | 0, s => s
  | fuel + 1, s =>
    match findSubstrIdx s pat with
    | none => s
    | some i =>
      s.take i ++ rep ++ replaceAllGo pat rep fuel (s.drop (i + pat.length))

/-- Global string replace (the dollar-path regex of outputPath). -/
def replaceAll (s pat rep : String) : String :=
  String.mk (replaceAllGo pat.data rep.data (s.data.length + 1) s.data)

/-- A route to prerender; getParams holds the parameter sets produced by
the asynchronous callback (a value here: the callback is external). -/
structure PrerenderRoute where
  path : String
  getParams : Option (List (List (String × String)))
  outputPath : Option String

/-- expandRoute: parameter substitution of :key and [key] placeholders,
first occurrence each, in insertion order of the parameter object. -/
def expandRoute (route : PrerenderRoute) : List String :=
  match route.getParams with
  | none => [route.path]
  | some paramSets =>
    paramSets.map (fun params =>
      params.foldl (fun expanded kv =>
        replaceFirst (replaceFirst expanded (":" ++ kv.1) kv.2)
          ("[" ++ kv.1 ++ "]") kv.2) route.path)

/-- JS Array.prototype.slice index normalization. -/
def jsSliceIndex (len : Nat) (i : Int) : Nat :=
  if i < 0 then (max ((len : Int) + i) 0).toNat else min i.toNat len

def sliceJs {α : Type} (l : List α) (s e : Int) : List α :=
  (l.take (jsSliceIndex l.length e)).drop (jsSliceIndex l.length s)

/-- The chunk loop: for (i = 0; i < length; i += size) push(slice(i,
i + size)).  Fuel bounds the iterations; none models a loop that has not
terminated within the fuel - and the non-termination theorem below shows
no fuel suffices when size is not positive and the array is nonempty. -/
def chunkLoop {α : Type} (arr : List α) (size : Int) :
    Nat → Int → List (List α) → Option (List (List α))
  | 0, i, acc => if i < (arr.length : Int) then none else some acc
  | fuel2 + 1, i, acc =>
    if i < (arr.length : Int) then
      chunkLoop arr size fuel2 (i + size) (acc ++ [sliceJs arr i (i + size)])
    else some acc

/-- chunk, with enough fuel for any positive size. -/
def chunkJs {α : Type} (arr : List α) (size : Int) :
    Option (List (List α)) :=
  chunkLoop arr size (arr.length + 1) 0 []

/-- Modelled from the spec: new URL(route, baseUrl).href, the WHATWG URL
resolution (an external web API).  Faithful for path-absolute routes
against an origin-form base URL - the only shapes the spec scenarios
exercise. -/
def urlHref (route baseUrl : String) : String := baseUrl ++ route

/-- JS Array.prototype.join. -/
def joinWith (sep : String) : List String → String
  | [] => ""
  | [s] => s
  | s :: rest => s ++ sep ++ joinWith sep rest

def sitemapEntry (loc : String) : String :=
  "  <url>\n    <loc>" ++ loc
    ++ "</loc>\n    <changefreq>weekly</changefreq>\n  </url>"

/-- generateSitemap: the XML document listing one url entry per route. -/
def generateSitemapXml (routes : List String) (baseUrl : String) : String :=
  "<?xml version=\"1.0\" encoding=\"UTF-8\"?>\n<urlset xmlns=\"http://www.sitemaps.org/schemas/sitemap/0.9\">\n"
    ++ joinWith "\n"
      (routes.map (fun route => sitemapEntry (urlHref route baseUrl)))
    ++ "\n</urlset>"

/-- Modelled node path.join of the output directory with an output path,
for the shapes used here (directory name without trailing slash). -/
def joinPaths (a b : String) : String :=
  if strStartsWith b "/" then a ++ b else a ++ "/" ++ b

structure PrerenderOptionsM where
  routes : List (Sum String PrerenderRoute)
  outputDir : String
  concurrency : Option Int
  minify : Bool
  onError : Option (String → String → Bool)
  generateSitemapOpt : Option Bool
  baseUrl : Option String

structure RouteRecord where
  path : String
  outputPath : String
  success : Bool
  error : Option String
  renderTime : Nat
deriving DecidableEq

structure PrerenderResultM where
  total : Nat
  success : Nat
  failed : Nat
  routes : List RouteRecord
  totalTime : Nat
deriving DecidableEq

structure TaskState where
  successCount : Nat
  failedCount : Nat
  records : List RouteRecord
  writes : List (String × String)
  aborted : Option String
deriving DecidableEq

/-- The catch branch of a task: invoke the error callback (absent
callback: undefined, which never equals false, so the batch continues),
record the failure, and abort the remaining chunks when the callback
returned false (the rethrow). -/
def taskFailure (st : TaskState) (path fullOutputPath msg : String)
    (onError : Option (String → String → Bool)) : TaskState :=
  let shouldContinue : Option Bool :=
    match onError with
    | some f => some (f msg path)
    | none => none
  ⟨st.successCount, st.failedCount + 1,
    st.records ++ [⟨path, fullOutputPath, false, some msg, 0⟩],
    st.writes,
    if shouldContinue == some false then some msg else st.aborted⟩

/-- One prerender task: render with skipCache, treat a non-200 status as
a failure, minify when configured, write the output file. -/
def runTask (outputDir : String) (minify : Bool) (minifyFn : String → String)
    (onError : Option (String → String → Bool))
    (engineRender : String → Except String (Nat × String))
    (st : TaskState) (task : String × String) : TaskState :=
  let fullOutputPath := joinPaths outputDir task.2
  match engineRender task.1 with
  | Except.ok (status, html0) =>
    if status ≠ 200 then
      taskFailure st task.1 fullOutputPath
        ("Render returned status " ++ toString status) onError
    else
      ⟨st.successCount + 1, st.failedCount,
        st.records ++ [⟨task.1, fullOutputPath, true, none, 0⟩],
        st.writes
          ++ [(fullOutputPath, if minify then minifyFn html0 else html0)],
        st.aborted⟩
  | Except.error msg => taskFailure st task.1 fullOutputPath msg onError

/-- All tasks of one chunk run (Promise.all dispatches them together). -/
def runChunk (outputDir : String) (minify : Bool) (minifyFn : String → String)
    (onError : Option (String → String → Bool))
    (engineRender : String → Except String (Nat × String))
    (st : TaskState) (tasks : List (String × String)) : TaskState :=
  tasks.foldl (runTask outputDir minify minifyFn onError engineRender) st

/-- Chunks run wave after wave; after an abort the remaining waves are
not dispatched. -/
def runChunks (outputDir : String) (minify : Bool)
    (minifyFn : String → String)
    (onError : Option (String → String → Bool))
    (engineRender : String → Except String (Nat × String))
    (chunks : List (List (String × String))) (st : TaskState) : TaskState :=
  chunks.foldl (fun st2 ch =>
    match st2.aborted with
    | some _ => st2
    | none => runChunk outputDir minify minifyFn onError engineRender
        st2 ch) st

/-- expansion of the route list: literals pass through, parameterized
routes expand per parameter set, with outputPath templates substituted. -/
def expandAll (routes : List (Sum String PrerenderRoute)) :
    List (String × String) :=
  routes.flatMap (fun r =>
    match r with
    | Sum.inl s => [(s, pathToOutputFile s)]
    | Sum.inr route =>
      (expandRoute route).map (fun p =>
        (p, match route.outputPath with
            | some op => replaceAll op "$path" p
            | none => pathToOutputFile p)))

/-- The final assembly: a thrown abort propagates out; otherwise the
aggregate result, with the sitemap written last when requested and at
least one task succeeded. -/
def assembleResult (outputDir baseUrl : String)
    (shouldGenerateSitemap : Bool) (total : Nat) (st : TaskState) :
    Except String (PrerenderResultM × List (String × String)) :=
  match st.aborted with
  | some msg => Except.error msg
  | none =>
    Except.ok (⟨total, st.successCount, st.failedCount, st.records, 0⟩,
      if shouldGenerateSitemap && decide (0 < st.successCount) then
        st.writes ++ [(joinPaths outputDir "sitemap.xml",
          generateSitemapXml
            ((st.records.filter (fun r => r.success)).map (fun r => r.path))
            baseUrl)]
      else st.writes)

/-- prerenderRoutes.  none models divergence of the chunking loop. -/
def prerenderRoutesM (opts : PrerenderOptionsM)
    (engineRender : String → Except String (Nat × String))
    (minifyFn : String → String) :
    Option (Except String (PrerenderResultM × List (String × String))) :=
  match chunkJs (expandAll opts.routes) (opts.concurrency.getD 5) with
  | none => none
  | some chunks =>
    some (assembleResult opts.outputDir
      (opts.baseUrl.getD "http://localhost")
      (opts.generateSitemapOpt.getD true) (expandAll opts.routes).length
      (runChunks opts.outputDir opts.minify minifyFn opts.onError
        engineRender chunks ⟨0, 0, [], [], none⟩))

def countSubstr (s pat : String) : Nat :=
  ((List.range s.data.length).filter
    (fun i => pat.data.isPrefixOf (s.data.drop i))).length

/-- With a non-positive chunk size and a nonempty array, the chunk loop
runs forever: no amount of fuel reaches the exit, since the index never
passes the array length. -/
theorem chunkLoop_nonpos_eq_none {α : Type} (arr : List α) (size : Int)
    (hsize : size ≤ 0) (hne : arr ≠ []) :
    ∀ (fuel : Nat) (i : Int) (acc : List (List α)), i ≤ 0 →
      chunkLoop arr size fuel i acc = none := by
  have hlen : 0 < (arr.length : Int) := by
    exact_mod_cast List.length_pos.mpr hne
  intro fuel
  induction fuel with
  | zero =>
    intro i acc hi
    simp only [chunkLoop]
    rw [if_pos (by omega)]
  | succ fuel2 ih =>
    intro i acc hi
    simp only [chunkLoop]
    rw [if_pos (by omega)]
    exact ih (i + size) (acc ++ [sliceJs arr i (i + size)]) (by omega)

/-- C5: the claim states that a concurrency value of at most 0 is either
replaced by a valid default or rejected with an error, the call
terminating either way.  The code does neither: the destructuring
default 5 applies only when the option is absent, so an explicit 0 is
used as-is, and chunk iterates i += 0 without ever advancing - the call
neither returns nor throws.  Refuted: the default is bypassed (first
conjunct), the loop exceeds every fuel bound (second), and the whole
prerender run diverges (third, the none result). -/
theorem concurrency_zero_divergence :
    (some (0 : Int)).getD 5 = 0 ∧
    (∀ (fuel : Nat) (acc : List (List (String × String))),
      chunkLoop [("/a", "/a/index.html")] 0 fuel 0 acc = none) ∧
    (∀ (engineRender : String → Except String (Nat × String))
       (minifyFn : String → String),
      prerenderRoutesM
        ⟨[Sum.inl "/a"], "dist", some 0, false, none, some false, none⟩
        engineRender minifyFn = none) := by
  refine ⟨rfl, ?_, ?_⟩
  · intro fuel acc
    exact chunkLoop_nonpos_eq_none _ 0 (by omega) (by decide) fuel 0 acc
      (by omega)
  · intro engineRender minifyFn
    rfl

/-- The C8 batch: three literal routes, rendering of /b reporting a
non-200 status, an error callback that always continues, no sitemap. -/
def partialOpts : PrerenderOptionsM :=
  ⟨[Sum.inl "/a", Sum.inl "/b", Sum.inl "/c"], "dist", none, false,
    some (fun _ _ => true), some false, none⟩

def partialOracle : String → Except String (Nat × String) :=
  fun p => if p = "/b" then Except.ok (500, "oops")
    else Except.ok (200, "<html>" ++ p ++ "</html>")

/-- C8: with routes /a, /b, /c where /b fails and the error callback
returns true, the batch completes with total 3, success 2, failed 1; the
record of /b has success false and carries the error message, and output
files are written for /a and /c only. -/
theorem partial_failure_reported_per_task :
    prerenderRoutesM partialOpts partialOracle (fun h => h)
      = some (Except.ok
        (⟨3, 2, 1,
          [⟨"/a", "dist/a/index.html", true, none, 0⟩,
           ⟨"/b", "dist/b/index.html", false,
             some "Render returned status 500", 0⟩,
           ⟨"/c", "dist/c/index.html", true, none, 0⟩], 0⟩,
         [("dist/a/index.html", "<html>/a</html>"),
          ("dist/c/index.html", "<html>/c</html>")])) := rfl

/-- C9: whenever the prerender run returns a result (rather than
aborting), sitemap generation is on, and at least one task succeeded,
the write list contains a sitemap.xml in the output directory whose
content is exactly the generated XML for the successful paths of the
result, resolved against the configured base URL. -/
theorem sitemap_lists_successful_routes (opts : PrerenderOptionsM)
    (engineRender : String → Except String (Nat × String))
    (minifyFn : String → String) (res : PrerenderResultM)
    (writes : List (String × String))
    (hres : prerenderRoutesM opts engineRender minifyFn
      = some (Except.ok (res, writes)))
    (hsm : opts.generateSitemapOpt.getD true = true)
    (hsucc : 0 < res.success) :
    (joinPaths opts.outputDir "sitemap.xml",
      generateSitemapXml
        ((res.routes.filter (fun r => r.success)).map (fun r => r.path))
        (opts.baseUrl.getD "http://localhost")) ∈ writes := by
  unfold prerenderRoutesM at hres
  cases hck : chunkJs (expandAll opts.routes) (opts.concurrency.getD 5) with
  | none =>
    rw [hck] at hres
    exact Option.noConfusion hres
  | some chunks =>
    rw [hck] at hres
    have h2 : assembleResult opts.outputDir
        (opts.baseUrl.getD "http://localhost")
        (opts.generateSitemapOpt.getD true)
        (expandAll opts.routes).length
        (runChunks opts.outputDir opts.minify minifyFn opts.onError
          engineRender chunks ⟨0, 0, [], [], none⟩)
        = Except.ok (res, writes) := Option.some.inj hres
    generalize hg : runChunks opts.outputDir opts.minify minifyFn
      opts.onError engineRender chunks ⟨0, 0, [], [], none⟩ = st at h2
    unfold assembleResult at h2
    cases hab : st.aborted with
    | some msg =>
      rw [hab] at h2
      exact Except.noConfusion h2
    | none =>
      rw [hab] at h2
      have h3 : ((⟨(expandAll opts.routes).length, st.successCount,
          st.failedCount, st.records, 0⟩ : PrerenderResultM),
          if opts.generateSitemapOpt.getD true
              && decide (0 < st.successCount) then
            st.writes ++ [(joinPaths opts.outputDir "sitemap.xml",
              generateSitemapXml
                ((st.records.filter (fun r => r.success)).map
                  (fun r => r.path))
                (opts.baseUrl.getD "http://localhost"))]
          else st.writes)
          = (res, writes) := Except.ok.inj h2
      have h4 : (⟨(expandAll opts.routes).length, st.successCount,
          st.failedCount, st.records, 0⟩ : PrerenderResultM) = res :=
        congrArg Prod.fst h3
      have h5 : (if opts.generateSitemapOpt.getD true
              && decide (0 < st.successCount) then
            st.writes ++ [(joinPaths opts.outputDir "sitemap.xml",
              generateSitemapXml
                ((st.records.filter (fun r => r.success)).map
                  (fun r => r.path))
                (opts.baseUrl.getD "http://localhost"))]
          else st.writes) = writes := congrArg Prod.snd h3
      subst h4
      have hsucc2 : 0 < st.successCount := hsucc
      have hcond : (opts.generateSitemapOpt.getD true
          && decide (0 < st.successCount)) = true := by
        rw [hsm, Bool.true_and]
        exact decide_eq_true hsucc2
      rw [if_pos hcond] at h5
      rw [← h5]
      exact List.mem_append.mpr (Or.inr (List.Mem.head _))

/-- The C9 witness batch: base URL https://example.com, routes / and
/about, every render succeeding. -/
def sitemapOpts : PrerenderOptionsM :=
  ⟨[Sum.inl "/", Sum.inl "/about"], "dist", none, false, none, none,
    some "https://example.com"⟩

def sitemapOracle : String → Except String (Nat × String) :=
  fun p => Except.ok (200, "<html>" ++ p ++ "</html>")

def sitemapRes : PrerenderResultM :=
  ⟨2, 2, 0, [⟨"/", "dist/index.html", true, none, 0⟩,
    ⟨"/about", "dist/about/index.html", true, none, 0⟩], 0⟩

def sitemapContent : String :=
  generateSitemapXml ["/", "/about"] "https://example.com"

def sitemapWrites : List (String × String) :=
  [("dist/index.html", "<html>/</html>"),
   ("dist/about/index.html", "<html>/about</html>"),
   ("dist/sitemap.xml", sitemapContent)]

set_option maxRecDepth 40000 in
theorem sitemap_lists_successful_routes_witness :
    (joinPaths sitemapOpts.outputDir "sitemap.xml",
      generateSitemapXml
        ((sitemapRes.routes.filter (fun r => r.success)).map
          (fun r => r.path))
        (sitemapOpts.baseUrl.getD "http://localhost")) ∈ sitemapWrites ∧
    countSubstr sitemapContent "<loc>" = 2 ∧
    Static.containsSubstr sitemapContent
      "<loc>https://example.com/</loc>" = true ∧
    Static.containsSubstr sitemapContent
      "<loc>https://example.com/about</loc>" = true :=
  ⟨sitemap_lists_successful_routes sitemapOpts sitemapOracle (fun h => h)
      sitemapRes sitemapWrites rfl rfl (by decide),
    by decide, by decide, by decide⟩

end Prerender

end NgxBun
